import Mathlib

/-!
Verification of the `custom::list<T>` doubly-linked list (src/list.h).

The C++ pointer graph is modelled as a heap of nodes addressed by natural
numbers: `Heap T` is an association list from addresses to `Node T` together
with a fresh-address counter.  Each member function of `custom::list` is
translated into a Lean function acting on a `list T` record (the three member
variables `numElements`, `pHead`, `pTail`) and a `Heap T`.  An iterator is its
`p` member: an `Option Nat` (null = `none`), exactly as in the source.
-/

set_option autoImplicit false

namespace CustomList

universe u

variable {T : Type u}

/-- `list<T>::Node` (src/list.h:129-147): user data plus the two links. -/
structure Node (T : Type u) where
  data : T
  pNext : Option Nat
  pPrev : Option Nat
  deriving Repr, DecidableEq

/-- The store of allocated nodes: newest allocation first, plus the next
fresh address.  `new` yields address `fresh`; `delete` removes the entry. -/
structure Heap (T : Type u) where
  mem : List (Nat × Node T)
  fresh : Nat
  deriving Repr, DecidableEq

/-- Dereference an address: `some` node when the address is live. -/
def Heap.nodeAt (h : Heap T) (a : Nat) : Option (Node T) :=
  (h.mem.find? (fun p => p.1 == a)).map Prod.snd

/-- `new Node(...)`: returns the extended heap and the new address. -/
def Heap.alloc (h : Heap T) (n : Node T) : Heap T × Nat :=
  (⟨(h.fresh, n) :: h.mem, h.fresh + 1⟩, h.fresh)

/-- In-place update of the node stored at `a` (no-op when `a` is dead). -/
def Heap.write (h : Heap T) (a : Nat) (f : Node T → Node T) : Heap T :=
  ⟨h.mem.map (fun p => if p.1 = a then (p.1, f p.2) else p), h.fresh⟩

/-- `x->pNext = v` for the node at address `a`. -/
def Heap.setNext (h : Heap T) (a : Nat) (v : Option Nat) : Heap T :=
  h.write a (fun n => { n with pNext := v })

/-- `x->pPrev = v` for the node at address `a`. -/
def Heap.setPrev (h : Heap T) (a : Nat) (v : Option Nat) : Heap T :=
  h.write a (fun n => { n with pPrev := v })

/-- `x->data = v` for the node at address `a` (element assignment `*it = v`). -/
def Heap.setData (h : Heap T) (a : Nat) (v : T) : Heap T :=
  h.write a (fun n => { n with data := v })

/-- `delete` the node at address `a`. -/
def Heap.free (h : Heap T) (a : Nat) : Heap T :=
  ⟨h.mem.filter (fun p => p.1 != a), h.fresh⟩

/-- The empty heap. -/
def emptyHeap : Heap T := ⟨[], 0⟩

/-- The member variables of `custom::list<T>` (src/list.h:116-118). -/
structure list (T : Type u) where
  numElements : Nat
  pHead : Option Nat
  pTail : Option Nat
  deriving Repr, DecidableEq

/-- A list paired with the heap its nodes live in. -/
def St (T : Type u) := list T × Heap T

/-- `list()` (src/list.h:275): empty list. -/
def list.dflt : list T := ⟨0, none, none⟩

/-- `size()` (src/list.h:108): returns `numElements`. -/
def list.size (l : list T) : Nat := l.numElements

/-- `empty()` (src/list.h:107): `size() == 0`. -/
def list.empty (l : list T) : Bool := l.size == 0

/-- `begin()` (src/list.h:72): iterator at `pHead`. -/
def list.begin (l : list T) : Option Nat := l.pHead

/-- `rbegin()` (src/list.h:73): iterator at `pTail`. -/
def list.rbegin (l : list T) : Option Nat := l.pTail

/-- `end()` (src/list.h:74): the null iterator. -/
def listEnd : Option Nat := none

/-!  Iterator operations (src/list.h:154-224). The iterator's sole state is
its node pointer `p : Option Nat`. -/

/-- `iterator::operator*` (src/list.h:176-182): data of the node, or the
thrown error on a null position.  Dereferencing a dangling (freed) pointer is
undefined behaviour in the source; the model returns a distinct error. -/
def star (h : Heap T) (p : Option Nat) : Except String T :=
  match p with
  | none => .error "ERROR: unable to access data from an empty list"
  | some a =>
    match h.nodeAt a with
    | some n => .ok n.data
    | none => .error "undefined: dangling iterator"

/-- Prefix `operator++` (src/list.h:193-198): `if (p) p = p->pNext`.
Advancing a dangling pointer is undefined behaviour; the model yields null. -/
def incr (h : Heap T) (p : Option Nat) : Option Nat :=
  match p with
  | none => none
  | some a =>
    match h.nodeAt a with
    | some n => n.pNext
    | none => none

/-- Prefix `operator--` (src/list.h:209-214): `if (p) p = p->pPrev`. -/
def decr (h : Heap T) (p : Option Nat) : Option Nat :=
  match p with
  | none => none
  | some a =>
    match h.nodeAt a with
    | some n => n.pPrev
    | none => none

/-- Postfix `operator++(int)` (src/list.h:185-190): mutates `p` exactly as the
prefix form, then `return *this` — the pair is (new state, returned value). -/
def incrPost (h : Heap T) (p : Option Nat) : Option Nat × Option Nat :=
  let p2 :=
    match p with
    | none => none
    | some a =>
      match h.nodeAt a with
      | some n => n.pNext
      | none => none
  (p2, p2)

/-- Postfix `operator--(int)` (src/list.h:201-206): mutates `p` exactly as the
prefix form, then `return *this`. -/
def decrPost (h : Heap T) (p : Option Nat) : Option Nat × Option Nat :=
  let p2 :=
    match p with
    | none => none
    | some a =>
      match h.nodeAt a with
      | some n => n.pPrev
      | none => none
  (p2, p2)

/-!  List mutators. -/

/-- `push_back` (src/list.h:443-458; the rvalue overload 461-477 has the same
body, the element move being a value copy in the model). -/
def push_back (s : St T) (data : T) : St T :=
  let (l, h) := s
  match l.pHead with
  | none =>
    -- pHead = pTail = new Node(data)
    let (h2, a) := h.alloc ⟨data, none, none⟩
    (⟨l.numElements + 1, some a, some a⟩, h2)
  | some _ =>
    -- newElement->pPrev = pTail; pTail->pNext = newElement; pTail = newElement
    let (h2, a) := h.alloc ⟨data, none, l.pTail⟩
    let h3 :=
      match l.pTail with
      | some t => h2.setNext t (some a)
      | none => h2  -- pHead non-null with pTail null: unreachable in a valid list
    (⟨l.numElements + 1, l.pHead, some a⟩, h3)

/-- `push_front` (src/list.h:487-501; rvalue overload 504-518 identical). -/
def push_front (s : St T) (data : T) : St T :=
  let (l, h) := s
  match l.pTail with
  | none =>
    let (h2, a) := h.alloc ⟨data, none, none⟩
    (⟨l.numElements + 1, some a, some a⟩, h2)
  | some _ =>
    -- newElement->pNext = pHead; pHead->pPrev = newElement; pHead = newElement
    let (h2, a) := h.alloc ⟨data, l.pHead, none⟩
    let h3 :=
      match l.pHead with
      | some hd => h2.setPrev hd (some a)
      | none => h2  -- pTail non-null with pHead null: unreachable in a valid list
    (⟨l.numElements + 1, some a, l.pTail⟩, h3)

/-- `erase` (src/list.h:587-620): unlink and delete the node at the iterator,
returning the new state together with the returned iterator. -/
def erase (s : St T) (it : Option Nat) : St T × Option Nat :=
  match it with
  | none => (s, none)  -- `if (it.p == nullptr) return nullptr;`
  | some a =>
    match s.2.nodeAt a with
    | none => (s, none)  -- erasing a dangling iterator: undefined behaviour
    | some n =>
      let (l, h) := s
      -- take care of the previous node, or move the head
      let (l1, h1) :=
        match n.pPrev with
        | some pr => (l, h.setNext pr n.pNext)
        | none => ({ l with pHead := n.pNext }, h)
      -- take care of the next node, or move the tail
      let (l2, h2) :=
        match n.pNext with
        | some nx => (l1, h1.setPrev nx n.pPrev)
        | none => ({ l1 with pTail := n.pPrev }, h1)
      -- pReturn = it.p->pNext (or nullptr); delete it.p; numElements--
      ((⟨l2.numElements - 1, l2.pHead, l2.pTail⟩, h2.free a), n.pNext)

/-- `pop_back` (src/list.h:529-532): `erase(iterator(pTail))`. -/
def pop_back (s : St T) : St T :=
  (erase s s.1.pTail).1

/-- `pop_front` (src/list.h:542-545): `erase(iterator(pHead))`. -/
def pop_front (s : St T) : St T :=
  (erase s s.1.pHead).1

/-- `front()` (src/list.h:555-561). -/
def front (s : St T) : Except String T :=
  match s.1.pHead with
  | some a =>
    match s.2.nodeAt a with
    | some n => .ok n.data
    | none => .error "undefined: dangling head"
  | none => .error "ERROR: unable to access data from an empty list"

/-- `back()` (src/list.h:571-577). -/
def back (s : St T) : Except String T :=
  match s.1.pTail with
  | some a =>
    match s.2.nodeAt a with
    | some n => .ok n.data
    | none => .error "undefined: dangling tail"
  | none => .error "ERROR: unable to access data from an empty list"

/-- `insert` (src/list.h:631-673; rvalue overload 676-718 identical modulo the
element move).  Returns the new state and the returned iterator. -/
def insert (s : St T) (it : Option Nat) (data : T) : St T × Option Nat :=
  let (l, h) := s
  if l.empty then
    -- pHead = pTail = new Node(data); numElements = 1; return begin()
    let (h2, a) := h.alloc ⟨data, none, none⟩
    ((⟨1, some a, some a⟩, h2), some a)
  else
    match it with
    | none =>
      -- inserting at the end: same as push_back
      let (h2, a) := h.alloc ⟨data, none, l.pTail⟩
      let h3 :=
        match l.pTail with
        | some t => h2.setNext t (some a)
        | none => h2  -- non-empty list with null pTail: unreachable
      ((⟨l.numElements + 1, l.pHead, some a⟩, h3), some a)
    | some p =>
      match h.nodeAt p with
      | none => ((l, h), none)  -- dangling position: undefined behaviour
      | some pn =>
        -- pNew->pPrev = it.p->pPrev; pNew->pNext = it.p
        let (h2, a) := h.alloc ⟨data, some p, pn.pPrev⟩
        -- if (pNew->pPrev) pNew->pPrev->pNext = pNew; else pHead = pNew
        let (l3, h3) :=
          match pn.pPrev with
          | some pr => (l, h2.setNext pr (some a))
          | none => ({ l with pHead := some a }, h2)
        -- pNew->pNext = it.p is non-null, so: pNew->pNext->pPrev = pNew
        let h4 := h3.setPrev p (some a)
        ((⟨l3.numElements + 1, l3.pHead, l3.pTail⟩, h4), some a)

/-- The loop of `clear()` (src/list.h:424-430): repeatedly read `pHead->pNext`,
delete the head node, decrement the count.  The fuel argument bounds the
number of iterations; every live node can be freed at most once, so
`h.mem.length` iterations always suffice. -/
def clearLoop : Nat → Heap T → Option Nat → Nat → Heap T × Nat
  | _, h, none, cnt => (h, cnt)
  | 0, h, some _, cnt => (h, cnt)
  | fuel + 1, h, some a, cnt =>
    let nxt := (h.nodeAt a).bind Node.pNext
    clearLoop fuel (h.free a) nxt (cnt - 1)

/-- `clear()` (src/list.h:422-433). -/
def clear (s : St T) : St T :=
  let (l, h) := s
  let (h2, cnt) := clearLoop (h.mem.length + 1) h l.pHead l.numElements
  (⟨cnt, none, none⟩, h2)

/-- `swap` (src/list.h:728-741): exchange the three member variables. -/
def swapLists (lhs rhs : list T) : list T × list T := (rhs, lhs)

/-- `list(list&&)` (src/list.h:291-295): steal `pHead`, `pTail`,
`numElements`; null out the source.  Returns (destination, source). -/
def moveCtor (l : list T) : list T × list T :=
  (⟨l.numElements, l.pHead, l.pTail⟩, ⟨0, none, none⟩)

/-- The lock-step overwrite loop shared by the copy- and move-assignment
operators (src/list.h:312-317 and 354-359): while both iterators are non-null,
`*itLhs = *itRhs` (for move-assignment `std::move(*itRhs)`, a value copy in
the model) and advance both.  Returns the heap and the two final iterators. -/
def copyLoop : Nat → Heap T → Option Nat → Option Nat → Heap T × Option Nat × Option Nat
  | 0, h, itL, itR => (h, itL, itR)
  | fuel + 1, h, itL, itR =>
    match itL, itR with
    | some al, some ar =>
      match h.nodeAt ar with
      | some nr =>
        let h2 := h.setData al nr.data
        copyLoop fuel h2 (incr h2 (some al)) (incr h2 (some ar))
      | none => (h, some al, some ar)  -- dangling source node: undefined
    | itL, itR => (h, itL, itR)

/-- The append loop of the assignment operators (src/list.h:320-328 and
361-369): while `itRhs` is non-null, `push_back(*itRhs); ++itRhs`. -/
def appendLoop : Nat → list T → Heap T → Option Nat → list T × Heap T
  | 0, l, h, _ => (l, h)
  | fuel + 1, l, h, itR =>
    match itR with
    | none => (l, h)
    | some ar =>
      match h.nodeAt ar with
      | some nr =>
        let (l2, h2) := push_back (l, h) nr.data
        appendLoop fuel l2 h2 (incr h2 (some ar))
      | none => (l, h)  -- dangling source node: undefined

/-- The trim loop of the assignment operators (src/list.h:334-336, 374-376,
407-409): `while (itLhs.p) itLhs = erase(itLhs)`. -/
def eraseLoop : Nat → list T → Heap T → Option Nat → list T × Heap T
  | 0, l, h, _ => (l, h)
  | fuel + 1, l, h, itL =>
    match itL with
    | none => (l, h)
    | some a =>
      let (s2, it2) := erase (l, h) (some a)
      eraseLoop fuel s2.1 s2.2 it2

/-- Copy-assignment `operator=(list&)` (src/list.h:348-378): lock-step
overwrite, then append the source's surplus, or clear when the source is
empty, or erase the destination's surplus.  The source list object is only
read, never written, so only the updated destination and heap are returned.
The fuel arguments strictly dominate each loop's iteration count on any
well-formed pair of lists. -/
def assignCopy (lhs rhs : list T) (h : Heap T) : list T × Heap T :=
  let (h2, itL, itR) := copyLoop (lhs.numElements + rhs.numElements + 1) h lhs.pHead rhs.pHead
  if itR ≠ none then
    appendLoop (rhs.numElements + 1) lhs h2 itR
  else if rhs.empty then
    clear (lhs, h2)
  else if itL ≠ none then
    eraseLoop (lhs.numElements + 1) lhs h2 itL
  else
    (lhs, h2)

/-- Move-assignment `operator=(list&&)` (src/list.h:305-338): the identical
algorithm, the element copies being `std::move`s of the elements.  Like the
copy form it never writes the source's `pHead`, `pTail` or `numElements`. -/
def assignMove (lhs rhs : list T) (h : Heap T) : list T × Heap T :=
  assignCopy lhs rhs h

/-- The loop of `operator=(initializer_list)` (src/list.h:390-405): for each
item, `push_back` when `itLhs == end()`, else `*itLhs = item`; `itLhs++`
either way. -/
def initLoop (l : list T) (h : Heap T) (itL : Option Nat) :
    List T → list T × Heap T × Option Nat
  | [] => (l, h, itL)
  | x :: xs =>
    match itL with
    | none =>
      let (l2, h2) := push_back (l, h) x
      initLoop l2 h2 (incr h2 none) xs
    | some al =>
      let h2 := h.setData al x
      initLoop l h2 (incr h2 (some al)) xs

/-- `operator=(initializer_list)` (src/list.h:388-412). -/
def assignInit (lhs : list T) (h : Heap T) (rhs : List T) : list T × Heap T :=
  let (l2, h2, itL) := initLoop lhs h lhs.pHead rhs
  if itL ≠ none then
    eraseLoop (l2.numElements + 1) l2 h2 itL
  else
    (l2, h2)

/-- The `initializer_list` and iterator-range constructors (src/list.h:243-247,
254-258): start empty and `push_back` each source element in order. -/
def ofListFrom (h : Heap T) (xs : List T) : St T :=
  xs.foldl (fun s x => push_back s x) (list.dflt, h)

/-- Construction from a sequence in an empty heap. -/
def ofList (xs : List T) : St T := ofListFrom emptyHeap xs

/-- Iterating front-to-back (begin, `!= end()`, dereference, `++`), collecting
the elements; fuel bounds the iteration count. -/
def collectFwd (h : Heap T) : Nat → Option Nat → List T
  | 0, _ => []
  | fuel + 1, p =>
    match p with
    | none => []
    | some _ =>
      match star h p with
      | .ok v => v :: collectFwd h fuel (incr h p)
      | .error _ => []

/-- Iterating back-to-front (rbegin, dereference, `--`). -/
def collectBwd (h : Heap T) : Nat → Option Nat → List T
  | 0, _ => []
  | fuel + 1, p =>
    match p with
    | none => []
    | some _ =>
      match star h p with
      | .ok v => v :: collectBwd h fuel (decr h p)
      | .error _ => []

/-- The addresses visited from a position following `pNext`. -/
def traverse (h : Heap T) : Nat → Option Nat → List Nat
  | 0, _ => []
  | fuel + 1, p =>
    match p with
    | none => []
    | some a => a :: traverse h fuel ((h.nodeAt a).bind Node.pNext)

/-!  ## Heap lemmas -/

theorem Heap.fresh_write (h : Heap T) (a : Nat) (f : Node T → Node T) :
    (h.write a f).fresh = h.fresh := rfl

theorem Heap.fresh_free (h : Heap T) (a : Nat) : (h.free a).fresh = h.fresh := rfl

theorem Heap.nodeAt_alloc (h : Heap T) (n : Node T) (b : Nat) :
    (h.alloc n).1.nodeAt b = if b = h.fresh then some n else h.nodeAt b := by
  by_cases hb : b = h.fresh
  · subst hb
    simp [Heap.alloc, Heap.nodeAt]
  · simp only [Heap.alloc, Heap.nodeAt, List.find?]
    have : (h.fresh == b) = false := by
      simp [Ne.symm hb]
    rw [this]
    simp [hb]

theorem Heap.nodeAt_write (h : Heap T) (a : Nat) (f : Node T → Node T) (b : Nat) :
    (h.write a f).nodeAt b = if b = a then (h.nodeAt b).map f else h.nodeAt b := by
  obtain ⟨mem, fr⟩ := h
  simp only [Heap.write, Heap.nodeAt]
  induction mem with
  | nil => simp
  | cons p rest ih =>
    obtain ⟨k, nd⟩ := p
    by_cases hk : k = b
    · subst hk
      by_cases ha : k = a
      · subst ha
        simp [List.find?]
      · simp [List.find?, ha, Ne.symm ha]
    · have hfind : ((if k = a then (k, f nd) else (k, nd)).1 == b) = false := by
        by_cases ha : k = a
        · subst ha
          simp [hk]
        · simp [ha, hk]
      simp only [List.map_cons, List.find?]
      rw [hfind]
      have hkb : (k == b) = false := by simp [hk]
      rw [hkb]
      exact ih

theorem Heap.nodeAt_free (h : Heap T) (a : Nat) (b : Nat) :
    (h.free a).nodeAt b = if b = a then none else h.nodeAt b := by
  obtain ⟨mem, fr⟩ := h
  simp only [Heap.free, Heap.nodeAt]
  induction mem with
  | nil => simp
  | cons p rest ih =>
    obtain ⟨k, nd⟩ := p
    rw [List.filter_cons]
    by_cases hka : k = a
    · subst hka
      have hcond : ((k, nd).1 != k) = false := by simp
      simp only [hcond, Bool.false_eq_true, if_false]
      rw [ih]
      by_cases hb : b = k
      · simp [hb]
      · have hkb : (k == b) = false := by
          simp only [beq_eq_false_iff_ne, ne_eq]
          exact fun e => hb e.symm
        simp [List.find?_cons, hkb, hb]
    · have hcond : ((k, nd).1 != a) = true := by simp [hka]
      simp only [hcond, if_true]
      by_cases hb : k = b
      · subst hb
        simp [List.find?_cons, hka]
      · have hkb : (k == b) = false := by simp [hb]
        simp only [List.find?_cons, hkb]
        rw [ih]

theorem Heap.nodeAt_setNext (h : Heap T) (a : Nat) (v : Option Nat) (b : Nat) :
    (h.setNext a v).nodeAt b =
      if b = a then (h.nodeAt b).map (fun n => { n with pNext := v }) else h.nodeAt b :=
  Heap.nodeAt_write h a _ b

theorem Heap.nodeAt_setPrev (h : Heap T) (a : Nat) (v : Option Nat) (b : Nat) :
    (h.setPrev a v).nodeAt b =
      if b = a then (h.nodeAt b).map (fun n => { n with pPrev := v }) else h.nodeAt b :=
  Heap.nodeAt_write h a _ b

theorem Heap.nodeAt_setData (h : Heap T) (a : Nat) (v : T) (b : Nat) :
    (h.setData a v).nodeAt b =
      if b = a then (h.nodeAt b).map (fun n => { n with data := v }) else h.nodeAt b :=
  Heap.nodeAt_write h a _ b

/-- A live address occurs among the heap's keys. -/
theorem Heap.mem_keys_of_nodeAt (h : Heap T) (a : Nat) (n : Node T)
    (hn : h.nodeAt a = some n) : a ∈ h.mem.map Prod.fst := by
  simp only [Heap.nodeAt, Option.map_eq_some'] at hn
  obtain ⟨p, hp, rfl⟩ := hn
  have hmem := List.mem_of_find?_eq_some hp
  have hkey := List.find?_some hp
  simp only [beq_iff_eq] at hkey
  subst hkey
  exact List.mem_map_of_mem Prod.fst hmem

/-!  ## Doubly-linked segments

`isSeg h prev addrs nxt` states that `addrs` is the address trace of a
doubly-linked chain in `h`: the first node's `pPrev` is `prev`, consecutive
nodes point at each other, and the last node's `pNext` is `nxt`. -/

/-- The forward link expected of a node whose successors are `ys`, the chain
ending with link `nxt`. -/
def nextOf (ys : List Nat) (nxt : Option Nat) : Option Nat :=
  match ys.head? with
  | some b => some b
  | none => nxt

/-- The backward link expected of a node whose predecessors are `xs`, the
chain starting with link `prev`. -/
def lastOf (xs : List Nat) (prev : Option Nat) : Option Nat :=
  match xs.getLast? with
  | some b => some b
  | none => prev

def isSeg (h : Heap T) : Option Nat → List Nat → Option Nat → Bool
  | _, [], _ => true
  | prev, a :: rest, nxt =>
    match h.nodeAt a with
    | none => false
    | some n =>
      (n.pPrev == prev) && (n.pNext == nextOf rest nxt) && isSeg h (some a) rest nxt

theorem nextOf_nil (nxt : Option Nat) : nextOf [] nxt = nxt := rfl

theorem nextOf_cons (b : Nat) (ys : List Nat) (nxt : Option Nat) :
    nextOf (b :: ys) nxt = some b := rfl

theorem nextOf_append (xs ys : List Nat) (nxt : Option Nat) :
    nextOf (xs ++ ys) nxt = nextOf xs (nextOf ys nxt) := by
  cases xs with
  | nil => rfl
  | cons x xs => rfl

theorem lastOf_nil (prev : Option Nat) : lastOf [] prev = prev := rfl

theorem lastOf_cons (x : Nat) (xs : List Nat) (prev : Option Nat) :
    lastOf (x :: xs) prev = lastOf xs (some x) := by
  cases xs with
  | nil => simp [lastOf]
  | cons y ys =>
    simp only [lastOf, List.getLast?_cons_cons]
    cases hxs : (y :: ys).getLast? with
    | none =>
      rw [List.getLast?_eq_none_iff] at hxs
      simp at hxs
    | some b => rfl

theorem isSeg_nil (h : Heap T) (prev nxt : Option Nat) : isSeg h prev [] nxt = true := rfl

theorem isSeg_cons_iff (h : Heap T) (prev nxt : Option Nat) (a : Nat) (rest : List Nat) :
    isSeg h prev (a :: rest) nxt = true ↔
      ∃ n, h.nodeAt a = some n ∧ n.pPrev = prev ∧ n.pNext = nextOf rest nxt ∧
        isSeg h (some a) rest nxt = true := by
  cases hn : h.nodeAt a with
  | none =>
    simp [isSeg, hn]
  | some n =>
    simp [isSeg, hn, and_assoc]

/-- Every address of a segment maps to a live node. -/
theorem isSeg_live (h : Heap T) :
    ∀ (addrs : List Nat) (prev nxt : Option Nat), isSeg h prev addrs nxt = true →
      ∀ a ∈ addrs, ∃ n, h.nodeAt a = some n := by
  intro addrs
  induction addrs with
  | nil => intro _ _ _ a ha; simp at ha
  | cons x rest ih =>
    intro prev nxt hseg a ha
    rw [isSeg_cons_iff] at hseg
    obtain ⟨n, hn, _, _, hrest⟩ := hseg
    rcases List.mem_cons.mp ha with h1 | h2
    · exact ⟨n, h1 ▸ hn⟩
    · exact ih (some x) nxt hrest a h2

/-- Segments only depend on the nodes at their own addresses. -/
theorem isSeg_congr (h h2 : Heap T) :
    ∀ (addrs : List Nat) (prev nxt : Option Nat),
      (∀ a ∈ addrs, h2.nodeAt a = h.nodeAt a) →
      isSeg h2 prev addrs nxt = isSeg h prev addrs nxt := by
  intro addrs
  induction addrs with
  | nil => intro _ _ _; rfl
  | cons x rest ih =>
    intro prev nxt hag
    have hx : h2.nodeAt x = h.nodeAt x := hag x (List.mem_cons_self x rest)
    have hrest : ∀ a ∈ rest, h2.nodeAt a = h.nodeAt a :=
      fun a ha => hag a (List.mem_cons_of_mem x ha)
    simp only [isSeg, hx]
    cases h.nodeAt x with
    | none => rfl
    | some n => rw [ih (some x) nxt hrest]

/-- Splitting a segment at an append. -/
theorem isSeg_append (h : Heap T) :
    ∀ (xs ys : List Nat) (prev nxt : Option Nat),
      isSeg h prev (xs ++ ys) nxt =
        (isSeg h prev xs (nextOf ys nxt) && isSeg h (lastOf xs prev) ys nxt) := by
  intro xs
  induction xs with
  | nil =>
    intro ys prev nxt
    simp [isSeg_nil, lastOf_nil]
  | cons x xs ih =>
    intro ys prev nxt
    cases hnx : h.nodeAt x with
    | none => simp [isSeg, hnx, lastOf_cons]
    | some n =>
      simp only [List.cons_append, isSeg, hnx, lastOf_cons, nextOf_append, List.append_eq]
      rw [ih ys (some x) nxt]
      cases (n.pPrev == prev) <;> cases (n.pNext == nextOf xs (nextOf ys nxt)) <;>
        simp [Bool.and_assoc]

/-- `setData` never disturbs a segment: links are data-independent. -/
theorem isSeg_setData (h : Heap T) (x : Nat) (v : T) :
    ∀ (addrs : List Nat) (prev nxt : Option Nat),
      isSeg (h.setData x v) prev addrs nxt = isSeg h prev addrs nxt := by
  intro addrs
  induction addrs with
  | nil => intro _ _; rfl
  | cons a rest ih =>
    intro prev nxt
    by_cases hax : a = x
    · subst hax
      cases hn : h.nodeAt a with
      | none => simp [isSeg, Heap.nodeAt_setData, hn]
      | some n => simp [isSeg, Heap.nodeAt_setData, hn, ih (some a) nxt]
    · cases hn : h.nodeAt a with
      | none => simp [isSeg, Heap.nodeAt_setData, hax, hn]
      | some n => simp [isSeg, Heap.nodeAt_setData, hax, hn, ih (some a) nxt]

/-!  ## Element values of an address trace -/

/-- The data stored along a list of addresses (live addresses only). -/
def values (h : Heap T) (addrs : List Nat) : List T :=
  addrs.filterMap (fun a => (h.nodeAt a).map Node.data)

theorem values_nil (h : Heap T) : values h [] = [] := rfl

theorem values_append (h : Heap T) (xs ys : List Nat) :
    values h (xs ++ ys) = values h xs ++ values h ys :=
  List.filterMap_append xs ys _

theorem values_congr (h h2 : Heap T) (addrs : List Nat)
    (hag : ∀ a ∈ addrs, (h2.nodeAt a).map Node.data = (h.nodeAt a).map Node.data) :
    values h2 addrs = values h addrs := by
  induction addrs with
  | nil => rfl
  | cons x rest ih =>
    simp only [values, List.filterMap_cons] at *
    rw [hag x (List.mem_cons_self x rest)]
    have := ih (fun a ha => hag a (List.mem_cons_of_mem x ha))
    cases (h.nodeAt x).map Node.data with
    | none => exact this
    | some v => rw [this]

theorem values_cons_live (h : Heap T) (a : Nat) (n : Node T) (rest : List Nat)
    (hn : h.nodeAt a = some n) :
    values h (a :: rest) = n.data :: values h rest := by
  simp [values, List.filterMap_cons, hn]

/-- On a segment, `values` has exactly one entry per address. -/
theorem values_length (h : Heap T) :
    ∀ (addrs : List Nat) (prev nxt : Option Nat), isSeg h prev addrs nxt = true →
      (values h addrs).length = addrs.length := by
  intro addrs
  induction addrs with
  | nil => intro _ _ _; rfl
  | cons x rest ih =>
    intro prev nxt hseg
    rw [isSeg_cons_iff] at hseg
    obtain ⟨n, hn, _, _, hrest⟩ := hseg
    rw [values_cons_live h x n rest hn]
    simp [ih (some x) nxt hrest]

theorem values_setNext (h : Heap T) (x : Nat) (v : Option Nat) (addrs : List Nat) :
    values (h.setNext x v) addrs = values h addrs := by
  apply values_congr
  intro a _
  rw [Heap.nodeAt_setNext]
  by_cases hax : a = x
  · subst hax
    simp only [if_pos rfl, Option.map_map]
    cases h.nodeAt a <;> rfl
  · rw [if_neg hax]

theorem values_setPrev (h : Heap T) (x : Nat) (v : Option Nat) (addrs : List Nat) :
    values (h.setPrev x v) addrs = values h addrs := by
  apply values_congr
  intro a _
  rw [Heap.nodeAt_setPrev]
  by_cases hax : a = x
  · subst hax
    simp only [if_pos rfl, Option.map_map]
    cases h.nodeAt a <;> rfl
  · rw [if_neg hax]

theorem values_alloc (h : Heap T) (n : Node T) (addrs : List Nat)
    (hb : ∀ a ∈ addrs, a ≠ h.fresh) :
    values (h.alloc n).1 addrs = values h addrs := by
  apply values_congr
  intro a ha
  rw [Heap.nodeAt_alloc, if_neg (hb a ha)]

theorem values_free (h : Heap T) (x : Nat) (addrs : List Nat) (hx : x ∉ addrs) :
    values (h.free x) addrs = values h addrs := by
  apply values_congr
  intro a ha
  rw [Heap.nodeAt_free, if_neg]
  intro hax
  exact hx (hax ▸ ha)

/-- Re-point the forward link of the last node of a segment. -/
theorem isSeg_setNext_last (h : Heap T) (v : Option Nat) :
    ∀ (xs : List Nat) (prev : Option Nat) (t : Nat) (old : Option Nat),
      xs.getLast? = some t → xs.Nodup →
      isSeg h prev xs old = true →
      isSeg (h.setNext t v) prev xs v = true := by
  intro xs
  induction xs with
  | nil => intro _ t _ hlast; simp at hlast
  | cons x rest ih =>
    intro prev t old hlast hnd hseg
    rw [isSeg_cons_iff] at hseg
    obtain ⟨n, hn, hprev, hnext, hrest⟩ := hseg
    cases rest with
    | nil =>
      have ht : t = x := by simpa using hlast.symm
      subst ht
      rw [isSeg_cons_iff]
      refine ⟨{ n with pNext := v }, ?_, hprev, rfl, isSeg_nil _ _ _⟩
      rw [Heap.nodeAt_setNext, if_pos rfl, hn]
      rfl
    | cons y ys =>
      have hlast2 : (y :: ys).getLast? = some t := by
        rwa [List.getLast?_cons_cons] at hlast
      have hmem : t ∈ y :: ys := by
        have hopt : t ∈ (y :: ys).getLast? := by
          rw [hlast2]
          rfl
        obtain ⟨hne, heq⟩ := List.mem_getLast?_eq_getLast hopt
        rw [heq]
        exact List.getLast_mem hne
      have hxt : x ≠ t := by
        intro hx
        subst hx
        exact (List.nodup_cons.mp hnd).1 hmem
      rw [isSeg_cons_iff]
      refine ⟨n, ?_, hprev, ?_, ?_⟩
      · rw [Heap.nodeAt_setNext, if_neg hxt, hn]
      · simpa [nextOf_cons] using hnext
      · exact ih (some x) t old hlast2 (List.nodup_cons.mp hnd).2 hrest

/-- Re-point the backward link of the first node of a segment. -/
theorem isSeg_setPrev_head (h : Heap T) (x : Nat) (Q : List Nat) (p0 v nxt : Option Nat)
    (hx : x ∉ Q) (hseg : isSeg h p0 (x :: Q) nxt = true) :
    isSeg (h.setPrev x v) v (x :: Q) nxt = true := by
  rw [isSeg_cons_iff] at hseg
  obtain ⟨n, hn, _, hnext, hrest⟩ := hseg
  rw [isSeg_cons_iff]
  refine ⟨{ n with pPrev := v }, ?_, rfl, hnext, ?_⟩
  · rw [Heap.nodeAt_setPrev, if_pos rfl, hn]
    rfl
  · rw [isSeg_congr (h := h)]
    · exact hrest
    · intro a ha
      rw [Heap.nodeAt_setPrev, if_neg]
      intro hax
      exact hx (hax ▸ ha)

/-!  ## Well-formed lists -/

/-- The representation invariant tying a `list` record to the address trace of
its node chain in the heap. -/
structure WF (h : Heap T) (l : list T) (addrs : List Nat) : Prop where
  chain : isSeg h none addrs none = true
  head_eq : l.pHead = addrs.head?
  tail_eq : l.pTail = addrs.getLast?
  count_eq : l.numElements = addrs.length
  nodup : addrs.Nodup
  bounded : ∀ a ∈ addrs, a < h.fresh

theorem WF_nil (h : Heap T) : WF h list.dflt [] :=
  ⟨isSeg_nil h none none, rfl, rfl, rfl, List.nodup_nil, by intro a ha; simp at ha⟩

/-- `h2` differs from `h` only at addresses of `A` or at addresses that were
not yet allocated in `h`. -/
def Frames (h h2 : Heap T) (A : List Nat) : Prop :=
  h.fresh ≤ h2.fresh ∧ ∀ b, b ∉ A → b < h.fresh → h2.nodeAt b = h.nodeAt b

theorem Frames_refl (h : Heap T) (A : List Nat) : Frames h h A :=
  ⟨le_refl _, fun _ _ _ => rfl⟩

theorem Frames_trans (h h2 h3 : Heap T) (A A2 : List Nat)
    (h12 : Frames h h2 A) (h23 : Frames h2 h3 A2)
    (hA2 : ∀ b ∈ A2, b ∈ A ∨ h.fresh ≤ b) :
    Frames h h3 A := by
  refine ⟨le_trans h12.1 h23.1, ?_⟩
  intro b hbA hbf
  have hbA2 : b ∉ A2 := by
    intro hb
    rcases hA2 b hb with hc | hc
    · exact hbA hc
    · exact absurd hbf (not_lt.mpr hc)
  rw [h23.2 b hbA2 (lt_of_lt_of_le hbf h12.1), h12.2 b hbA hbf]

/-- A disjoint well-formed list is untouched by a heap change that frames on
another address set. -/
theorem WF_of_frames (h h2 : Heap T) (lB : list T) (B A : List Nat)
    (hB : WF h lB B) (hf : Frames h h2 A) (hd : ∀ b ∈ B, b ∉ A) :
    WF h2 lB B ∧ values h2 B = values h B := by
  have hag : ∀ b ∈ B, h2.nodeAt b = h.nodeAt b :=
    fun b hb => hf.2 b (hd b hb) (hB.bounded b hb)
  constructor
  · refine ⟨?_, hB.head_eq, hB.tail_eq, hB.count_eq, hB.nodup, ?_⟩
    · rw [isSeg_congr h h2 B none none hag]
      exact hB.chain
    · exact fun b hb => lt_of_lt_of_le (hB.bounded b hb) hf.1
  · exact values_congr h h2 B (fun b hb => by rw [hag b hb])

/-!  ## Specifications of the basic mutators -/

theorem Heap.alloc_snd (h : Heap T) (n : Node T) : (h.alloc n).2 = h.fresh := rfl

theorem Heap.alloc_fst_fresh (h : Heap T) (n : Node T) : (h.alloc n).1.fresh = h.fresh + 1 := rfl

theorem push_back_eq_none (l : list T) (h : Heap T) (v : T) (hph : l.pHead = none) :
    push_back (l, h) v =
      (⟨l.numElements + 1, some h.fresh, some h.fresh⟩, (h.alloc ⟨v, none, none⟩).1) := by
  simp [push_back, hph, Heap.alloc_snd]

theorem push_back_eq_some (l : list T) (h : Heap T) (v : T) (a0 t : Nat)
    (hph : l.pHead = some a0) (hpt : l.pTail = some t) :
    push_back (l, h) v =
      (⟨l.numElements + 1, l.pHead, some h.fresh⟩,
        (h.alloc ⟨v, none, l.pTail⟩).1.setNext t (some h.fresh)) := by
  simp [push_back, hph, hpt, Heap.alloc_snd]

/-- A singleton chain out of a freshly allocated isolated node. -/
theorem isSeg_fresh_single (h : Heap T) (v : T) :
    isSeg (h.alloc ⟨v, none, none⟩).1 none [h.fresh] none = true := by
  rw [isSeg_cons_iff]
  refine ⟨⟨v, none, none⟩, ?_, rfl, rfl, isSeg_nil _ _ _⟩
  rw [Heap.nodeAt_alloc, if_pos rfl]

theorem push_back_spec (h : Heap T) (l : list T) (A : List Nat) (v : T) (hw : WF h l A) :
    WF (push_back (l, h) v).2 (push_back (l, h) v).1 (A ++ [h.fresh]) ∧
    values (push_back (l, h) v).2 (A ++ [h.fresh]) = values h A ++ [v] ∧
    Frames h (push_back (l, h) v).2 A ∧
    (push_back (l, h) v).1.numElements = l.numElements + 1 ∧
    (push_back (l, h) v).2.fresh = h.fresh + 1 := by
  obtain ⟨hchain, hhead, htail, hcount, hnodup, hbound⟩ := hw
  cases A with
  | nil =>
    have hph : l.pHead = none := by rw [hhead]; rfl
    rw [push_back_eq_none l h v hph]
    have hna : ((h.alloc ⟨v, none, none⟩).1).nodeAt h.fresh = some ⟨v, none, none⟩ := by
      rw [Heap.nodeAt_alloc, if_pos rfl]
    refine ⟨⟨isSeg_fresh_single h v, rfl, rfl, ?_, ?_, ?_⟩, ?_, ?_, rfl, rfl⟩
    · simpa using hcount
    · simp
    · intro a ha
      simp at ha
      subst ha
      rw [Heap.alloc_fst_fresh]
      omega
    · rw [values_nil, List.nil_append, List.nil_append, values_cons_live _ _ _ _ hna,
        values_nil]
    · exact ⟨by rw [Heap.alloc_fst_fresh]; omega, fun b _ hb => by
        rw [Heap.nodeAt_alloc, if_neg (by omega)]⟩
  | cons a0 A' =>
    have hph : l.pHead = some a0 := by rw [hhead]; rfl
    obtain ⟨t, hpt⟩ : ∃ t, l.pTail = some t := by
      rw [htail]
      cases hg : (a0 :: A').getLast? with
      | none =>
        rw [List.getLast?_eq_none_iff] at hg
        simp at hg
      | some t => exact ⟨t, rfl⟩
    have hglast : (a0 :: A').getLast? = some t := by rw [← htail, hpt]
    have htmem : t ∈ a0 :: A' := by
      have hopt : t ∈ (a0 :: A').getLast? := by rw [hglast]; rfl
      obtain ⟨hne, heq⟩ := List.mem_getLast?_eq_getLast hopt
      rw [heq]
      exact List.getLast_mem hne
    have htlt : t < h.fresh := hbound t htmem
    have hfreshnot : h.fresh ∉ a0 :: A' := fun hmem => absurd (hbound _ hmem) (lt_irrefl _)
    rw [push_back_eq_some l h v a0 t hph hpt]
    set h2 := (h.alloc ⟨v, none, l.pTail⟩).1 with hh2
    set h3 := h2.setNext t (some h.fresh) with hh3
    have hcongr2 : ∀ b ∈ a0 :: A', h2.nodeAt b = h.nodeAt b := by
      intro b hb
      rw [hh2, Heap.nodeAt_alloc, if_neg]
      intro he
      exact hfreshnot (he ▸ hb)
    have hseg2 : isSeg h2 none (a0 :: A') none = true := by
      rw [isSeg_congr h h2 _ none none hcongr2]
      exact hchain
    have hseg3 : isSeg h3 none (a0 :: A') (some h.fresh) = true :=
      isSeg_setNext_last h2 (some h.fresh) (a0 :: A') none t none hglast hnodup hseg2
    have hnew3 : h3.nodeAt h.fresh = some ⟨v, none, l.pTail⟩ := by
      rw [hh3, Heap.nodeAt_setNext, if_neg (by omega), hh2, Heap.nodeAt_alloc, if_pos rfl]
    have hchain3 : isSeg h3 none ((a0 :: A') ++ [h.fresh]) none = true := by
      rw [isSeg_append]
      rw [Bool.and_eq_true]
      refine ⟨?_, ?_⟩
      · simpa [nextOf] using hseg3
      · rw [isSeg_cons_iff]
        refine ⟨⟨v, none, l.pTail⟩, hnew3, ?_, rfl, isSeg_nil _ _ _⟩
        simp only [lastOf, hglast, hpt]
    have hvals : values h3 ((a0 :: A') ++ [h.fresh]) = values h (a0 :: A') ++ [v] := by
      rw [values_append]
      have hv3 : values h3 (a0 :: A') = values h (a0 :: A') := by
        rw [hh3, values_setNext]
        exact values_alloc h _ _ (fun a ha => fun he => hfreshnot (he ▸ ha))
      rw [hv3, values_cons_live h3 h.fresh ⟨v, none, l.pTail⟩ [] hnew3, values_nil]
    refine ⟨⟨hchain3, by simpa using hph, ?_, ?_, ?_, ?_⟩, hvals, ?_, rfl, rfl⟩
    · rw [List.getLast?_concat]
    · simp [hcount]
    · rw [List.nodup_append]
      exact ⟨hnodup, List.nodup_singleton _, by
        intro x hx hy
        simp at hy
        subst hy
        exact hfreshnot hx⟩
    · intro b hb
      have hfr3 : h3.fresh = h.fresh + 1 := rfl
      rw [hfr3]
      rcases List.mem_append.mp hb with hbA | hbF
      · exact lt_trans (hbound b hbA) (Nat.lt_succ_self _)
      · simp at hbF
        subst hbF
        exact Nat.lt_succ_self _
    · refine ⟨by rw [show h3.fresh = h.fresh + 1 from rfl]; omega, ?_⟩
      intro b hbA hblt
      have hbt : b ≠ t := fun he => hbA (he ▸ htmem)
      rw [hh3, Heap.nodeAt_setNext, if_neg hbt, hh2, Heap.nodeAt_alloc, if_neg (by omega)]

theorem push_front_eq_none (l : list T) (h : Heap T) (v : T) (hpt : l.pTail = none) :
    push_front (l, h) v =
      (⟨l.numElements + 1, some h.fresh, some h.fresh⟩, (h.alloc ⟨v, none, none⟩).1) := by
  simp [push_front, hpt, Heap.alloc_snd]

theorem push_front_eq_some (l : list T) (h : Heap T) (v : T) (a0 t : Nat)
    (hph : l.pHead = some a0) (hpt : l.pTail = some t) :
    push_front (l, h) v =
      (⟨l.numElements + 1, some h.fresh, l.pTail⟩,
        (h.alloc ⟨v, l.pHead, none⟩).1.setPrev a0 (some h.fresh)) := by
  simp [push_front, hph, hpt, Heap.alloc_snd]

theorem push_front_spec (h : Heap T) (l : list T) (A : List Nat) (v : T) (hw : WF h l A) :
    WF (push_front (l, h) v).2 (push_front (l, h) v).1 (h.fresh :: A) ∧
    values (push_front (l, h) v).2 (h.fresh :: A) = v :: values h A ∧
    Frames h (push_front (l, h) v).2 A ∧
    (push_front (l, h) v).1.numElements = l.numElements + 1 ∧
    (push_front (l, h) v).2.fresh = h.fresh + 1 := by
  obtain ⟨hchain, hhead, htail, hcount, hnodup, hbound⟩ := hw
  cases A with
  | nil =>
    have hpt : l.pTail = none := by rw [htail]; rfl
    rw [push_front_eq_none l h v hpt]
    have hna : ((h.alloc ⟨v, none, none⟩).1).nodeAt h.fresh = some ⟨v, none, none⟩ := by
      rw [Heap.nodeAt_alloc, if_pos rfl]
    refine ⟨⟨isSeg_fresh_single h v, rfl, rfl, ?_, ?_, ?_⟩, ?_, ?_, rfl, rfl⟩
    · simpa using hcount
    · simp
    · intro a ha
      simp at ha
      subst ha
      rw [Heap.alloc_fst_fresh]
      omega
    · rw [values_cons_live _ _ _ _ hna, values_nil, values_nil]
    · exact ⟨by rw [Heap.alloc_fst_fresh]; omega, fun b _ hb => by
        rw [Heap.nodeAt_alloc, if_neg (by omega)]⟩
  | cons a0 A' =>
    have hph : l.pHead = some a0 := by rw [hhead]; rfl
    obtain ⟨t, hpt⟩ : ∃ t, l.pTail = some t := by
      rw [htail]
      cases hg : (a0 :: A').getLast? with
      | none =>
        rw [List.getLast?_eq_none_iff] at hg
        simp at hg
      | some t => exact ⟨t, rfl⟩
    have ha0mem : a0 ∈ a0 :: A' := List.mem_cons_self a0 A'
    have hfreshnot : h.fresh ∉ a0 :: A' := fun hmem => absurd (hbound _ hmem) (lt_irrefl _)
    have ha0nA' : a0 ∉ A' := (List.nodup_cons.mp hnodup).1
    rw [push_front_eq_some l h v a0 t hph hpt]
    set h2 := (h.alloc ⟨v, l.pHead, none⟩).1 with hh2
    set h3 := h2.setPrev a0 (some h.fresh) with hh3
    have hcongr2 : ∀ b ∈ a0 :: A', h2.nodeAt b = h.nodeAt b := by
      intro b hb
      rw [hh2, Heap.nodeAt_alloc, if_neg]
      intro he
      exact hfreshnot (he ▸ hb)
    have hseg2 : isSeg h2 none (a0 :: A') none = true := by
      rw [isSeg_congr h h2 _ none none hcongr2]
      exact hchain
    have hseg3 : isSeg h3 (some h.fresh) (a0 :: A') none = true :=
      isSeg_setPrev_head h2 a0 A' none (some h.fresh) none ha0nA' hseg2
    have hnew3 : h3.nodeAt h.fresh = some ⟨v, l.pHead, none⟩ := by
      have ha0f : a0 < h.fresh := hbound a0 ha0mem
      rw [hh3, Heap.nodeAt_setPrev, if_neg (by omega), hh2, Heap.nodeAt_alloc, if_pos rfl]
    have hchain3 : isSeg h3 none (h.fresh :: a0 :: A') none = true := by
      rw [isSeg_cons_iff]
      exact ⟨⟨v, l.pHead, none⟩, hnew3, rfl, by simp [nextOf_cons, hph], hseg3⟩
    have hvals : values h3 (h.fresh :: a0 :: A') = v :: values h (a0 :: A') := by
      rw [values_cons_live h3 h.fresh ⟨v, l.pHead, none⟩ _ hnew3]
      have hv3 : values h3 (a0 :: A') = values h (a0 :: A') := by
        rw [hh3, values_setPrev]
        exact values_alloc h _ _ (fun a ha => fun he => hfreshnot (he ▸ ha))
      rw [hv3]
    refine ⟨⟨hchain3, rfl, ?_, ?_, ?_, ?_⟩, hvals, ?_, rfl, rfl⟩
    · rw [htail, List.getLast?_cons_cons]
    · simp [hcount]
    · rw [List.nodup_cons]
      exact ⟨hfreshnot, hnodup⟩
    · intro b hb
      have hfr3 : h3.fresh = h.fresh + 1 := rfl
      rw [hfr3]
      rcases List.mem_cons.mp hb with hbF | hbA
      · subst hbF
        exact Nat.lt_succ_self _
      · exact lt_trans (hbound b hbA) (Nat.lt_succ_self _)
    · refine ⟨by rw [show h3.fresh = h.fresh + 1 from rfl]; omega, ?_⟩
      intro b hbA hblt
      have hba0 : b ≠ a0 := fun he => hbA (he ▸ ha0mem)
      rw [hh3, Heap.nodeAt_setPrev, if_neg hba0, hh2, Heap.nodeAt_alloc, if_neg (by omega)]

theorem nextOf_none_arg (ys : List Nat) : nextOf ys none = ys.head? := by
  cases ys <;> rfl

theorem lastOf_none_arg (xs : List Nat) : lastOf xs none = xs.getLast? := by
  cases hx : xs.getLast? <;> simp [lastOf, hx]

theorem erase_none (s : St T) : erase s none = (s, none) := rfl

theorem erase_spec (h : Heap T) (l : list T) (P Q : List Nat) (a : Nat)
    (hw : WF h l (P ++ a :: Q)) :
    (erase (l, h) (some a)).2 = Q.head? ∧
    WF (erase (l, h) (some a)).1.2 (erase (l, h) (some a)).1.1 (P ++ Q) ∧
    values (erase (l, h) (some a)).1.2 (P ++ Q) = values h P ++ values h Q ∧
    values (erase (l, h) (some a)).1.2 P = values h P ∧
    values (erase (l, h) (some a)).1.2 Q = values h Q ∧
    (erase (l, h) (some a)).1.1.numElements = l.numElements - 1 ∧
    Frames h (erase (l, h) (some a)).1.2 (P ++ a :: Q) ∧
    (erase (l, h) (some a)).1.2.nodeAt a = none ∧
    (erase (l, h) (some a)).1.2.fresh = h.fresh := by
  obtain ⟨hchain, hhead, htail, hcount, hnodup, hbound⟩ := hw
  have hnd3 := List.nodup_append.mp hnodup
  have hPnd : P.Nodup := hnd3.1
  have haQnd : (a :: Q).Nodup := hnd3.2.1
  have hdisj : P.Disjoint (a :: Q) := hnd3.2.2
  have haP : a ∉ P := fun hmem => hdisj hmem (List.mem_cons_self a Q)
  have haQ : a ∉ Q := (List.nodup_cons.mp haQnd).1
  have hQnd : Q.Nodup := (List.nodup_cons.mp haQnd).2
  have hsplit := hchain
  rw [isSeg_append, Bool.and_eq_true] at hsplit
  obtain ⟨hsegP, hsegAQ⟩ := hsplit
  rw [isSeg_cons_iff] at hsegAQ
  obtain ⟨n, hn, hnp, hnn, hsegQ⟩ := hsegAQ
  rw [lastOf_none_arg] at hnp
  rw [nextOf_cons] at hsegP
  have hcnt : l.numElements = P.length + 1 + Q.length := by
    rw [hcount]
    simp
    omega
  have hboundP : ∀ b ∈ P, b < h.fresh := fun b hb => hbound b (List.mem_append_left _ hb)
  have hboundQ : ∀ b ∈ Q, b < h.fresh :=
    fun b hb => hbound b (List.mem_append_right _ (List.mem_cons_of_mem a hb))
  cases P with
  | nil =>
    have hnp' : n.pPrev = none := by rw [hnp]; rfl
    cases Q with
    | nil =>
      have hnn' : n.pNext = none := by rw [hnn]; rfl
      have hres : erase (l, h) (some a) = ((⟨l.numElements - 1, none, none⟩, h.free a), none) := by
        simp [erase, hn, hnp', hnn']
      rw [hres]
      refine ⟨by rw [hnn'] at hnn; simp, ⟨isSeg_nil _ _ _, rfl, rfl, ?_, List.nodup_nil, ?_⟩,
        ?_, rfl, rfl, rfl, ?_, ?_, rfl⟩
      · simp [hcnt]
      · intro b hb; simp at hb
      · simp [values]
      · exact ⟨le_refl _, fun b hb hlt => by
          rw [Heap.nodeAt_free, if_neg (by simp at hb; omega)]⟩
      · rw [Heap.nodeAt_free, if_pos rfl]
    | cons q Q' =>
      have hnn' : n.pNext = some q := by rw [hnn]; rfl
      have hqQ' : q ∉ Q' := (List.nodup_cons.mp hQnd).1
      have hres : erase (l, h) (some a) =
          ((⟨l.numElements - 1, some q, l.pTail⟩, (h.setPrev q none).free a), some q) := by
        simp [erase, hn, hnp', hnn']
      rw [hres]
      have hseg2 : isSeg ((h.setPrev q none).free a) none (q :: Q') none = true := by
        rw [isSeg_congr (h := h.setPrev q none)]
        · exact isSeg_setPrev_head h q Q' (some a) none none hqQ' hsegQ
        · intro b hb
          rw [Heap.nodeAt_free, if_neg (show b ≠ a from fun he => haQ (he ▸ hb))]
      refine ⟨rfl, ⟨hseg2, rfl, ?_, ?_, hQnd, ?_⟩, ?_, rfl, ?_, rfl, ?_, ?_, rfl⟩
      · rw [htail]
        simp [List.getLast?_cons_cons]
      · simp [hcnt]
      · intro b hb
        simp only [List.nil_append] at hb
        exact hboundQ b hb
      · rw [values_free _ _ _ (by simpa using haQ), values_setPrev]
        simp [values]
      · rw [values_free _ _ _ (by simpa using haQ), values_setPrev]
      · exact ⟨le_refl _, fun b hb hlt => by
          simp only [List.nil_append, List.mem_cons, not_or] at hb
          rw [Heap.nodeAt_free, if_neg hb.1, Heap.nodeAt_setPrev, if_neg hb.2.1]⟩
      · rw [Heap.nodeAt_free, if_pos rfl]
  | cons p0 P' =>
    obtain ⟨pr, hpr⟩ : ∃ pr, (p0 :: P').getLast? = some pr := by
      cases hg : (p0 :: P').getLast? with
      | none => rw [List.getLast?_eq_none_iff] at hg; simp at hg
      | some pr => exact ⟨pr, rfl⟩
    have hnp' : n.pPrev = some pr := by rw [hnp, hpr]
    have hprP : pr ∈ p0 :: P' := by
      have hopt : pr ∈ (p0 :: P').getLast? := by rw [hpr]; rfl
      obtain ⟨hne, heq⟩ := List.mem_getLast?_eq_getLast hopt
      rw [heq]
      exact List.getLast_mem hne
    have hpra : pr ≠ a := fun he => haP (he ▸ hprP)
    have hprQ : pr ∉ Q := fun hmem => hdisj hprP (List.mem_cons_of_mem a hmem)
    cases Q with
    | nil =>
      have hnn' : n.pNext = none := by rw [hnn]; rfl
      have hres : erase (l, h) (some a) =
          ((⟨l.numElements - 1, l.pHead, some pr⟩, (h.setNext pr none).free a), none) := by
        simp [erase, hn, hnp', hnn']
      rw [hres]
      have hseg2 : isSeg ((h.setNext pr none).free a) none (p0 :: P') none = true := by
        rw [isSeg_congr (h := h.setNext pr none)]
        · exact isSeg_setNext_last h none (p0 :: P') none pr (some a) hpr hPnd hsegP
        · intro b hb
          rw [Heap.nodeAt_free, if_neg (show b ≠ a from fun he => haP (he ▸ hb))]
      refine ⟨rfl, ⟨by simpa using hseg2, by simpa using hhead, ?_, ?_, by simpa using hPnd, ?_⟩,
        ?_, ?_, rfl, rfl, ?_, ?_, rfl⟩
      · simp [hpr]
      · simp [hcnt]
      · intro b hb
        simp only [List.append_nil] at hb
        exact hboundP b hb
      · rw [values_free _ _ _ (by simpa using haP), values_setNext]
        simp [values]
      · rw [values_free _ _ _ (by simpa using haP), values_setNext]
      · refine ⟨le_refl _, fun b hb hlt => ?_⟩
        have hba : b ≠ a := fun he => hb (by
          rw [he]
          exact List.mem_append_right _ (List.mem_cons_self a _))
        have hbpr : b ≠ pr := fun he => hb (by
          rw [he]
          exact List.mem_append_left _ hprP)
        rw [Heap.nodeAt_free, if_neg hba, Heap.nodeAt_setNext, if_neg hbpr]
      · rw [Heap.nodeAt_free, if_pos rfl]
    | cons q Q' =>
      have hnn' : n.pNext = some q := by rw [hnn]; rfl
      have hqQ' : q ∉ Q' := (List.nodup_cons.mp hQnd).1
      have hqP : q ∉ p0 :: P' := fun hmem => hdisj hmem (by simp)
      have hqa : q ≠ a := fun he => haQ (he ▸ List.mem_cons_self q Q')
      have hres : erase (l, h) (some a) =
          ((⟨l.numElements - 1, l.pHead, l.pTail⟩,
            (((h.setNext pr (some q)).setPrev q (some pr)).free a)), some q) := by
        simp [erase, hn, hnp', hnn']
      rw [hres]
      set h1 := h.setNext pr (some q) with hh1
      set h2 := h1.setPrev q (some pr) with hh2
      set h3 := h2.free a with hh3
      have hsegP3 : isSeg h3 none (p0 :: P') (some q) = true := by
        rw [isSeg_congr (h := h1)]
        · exact isSeg_setNext_last h (some q) (p0 :: P') none pr (some a) hpr hPnd hsegP
        · intro b hb
          rw [hh3, Heap.nodeAt_free, if_neg (show b ≠ a from fun he => haP (he ▸ hb)), hh2,
            Heap.nodeAt_setPrev, if_neg (show b ≠ q from fun he => hqP (he ▸ hb))]
      have hsegQ1 : isSeg h1 (some a) (q :: Q') none = true := by
        rw [isSeg_congr (h := h)]
        · exact hsegQ
        · intro b hb
          rw [hh1, Heap.nodeAt_setNext, if_neg (show b ≠ pr from fun he => hprQ (he ▸ hb))]
      have hsegQ3 : isSeg h3 (some pr) (q :: Q') none = true := by
        rw [isSeg_congr (h := h2)]
        · exact isSeg_setPrev_head h1 q Q' (some a) (some pr) none hqQ' hsegQ1
        · intro b hb
          rw [hh3, Heap.nodeAt_free, if_neg (show b ≠ a from fun he => haQ (he ▸ hb))]
      have hchain3 : isSeg h3 none ((p0 :: P') ++ q :: Q') none = true := by
        rw [isSeg_append, Bool.and_eq_true]
        refine ⟨by simpa [nextOf_cons] using hsegP3, ?_⟩
        rw [lastOf_none_arg, hpr]
        exact hsegQ3
      refine ⟨rfl, ⟨hchain3, by simpa using hhead, ?_, ?_, ?_, ?_⟩, ?_, ?_, ?_, rfl, ?_, ?_,
        rfl⟩
      · rw [htail, List.getLast?_append_cons, List.getLast?_append_cons,
          List.getLast?_cons_cons]
      · simp [hcnt]
        omega
      · rw [List.nodup_append]
        exact ⟨hPnd, hQnd, fun x hx hy => hdisj hx (List.mem_cons_of_mem a hy)⟩
      · intro b hb
        rcases List.mem_append.mp hb with hbP | hbQ
        · exact hboundP b hbP
        · exact hboundQ b hbQ
      · rw [values_free, values_setPrev, values_setNext, values_append]
        intro hmem
        rcases List.mem_append.mp hmem with hbP | hbQ
        · exact haP hbP
        · exact haQ hbQ
      · rw [hh3, values_free _ _ _ haP, hh2, values_setPrev, hh1, values_setNext]
      · rw [hh3, values_free _ _ _ haQ, hh2, values_setPrev, hh1, values_setNext]
      · refine ⟨le_refl _, fun b hb hlt => ?_⟩
        have hba : b ≠ a := fun he => hb (by
          rw [he]
          exact List.mem_append_right _ (List.mem_cons_self a _))
        have hbpr : b ≠ pr := fun he => hb (by
          rw [he]
          exact List.mem_append_left _ hprP)
        have hbq : b ≠ q := fun he => hb (by
          rw [he]
          exact List.mem_append_right _ (List.mem_cons_of_mem a (List.mem_cons_self q Q')))
        rw [hh3, Heap.nodeAt_free, if_neg hba, hh2, Heap.nodeAt_setPrev, if_neg hbq, hh1,
          Heap.nodeAt_setNext, if_neg hbpr]
      · rw [hh3, Heap.nodeAt_free, if_pos rfl]

theorem insert_empty_eq (l : list T) (h : Heap T) (it : Option Nat) (v : T)
    (hcnt : l.numElements = 0) :
    insert (l, h) it v =
      ((⟨1, some h.fresh, some h.fresh⟩, (h.alloc ⟨v, none, none⟩).1), some h.fresh) := by
  simp [insert, list.empty, list.size, hcnt, Heap.alloc_snd]

theorem insert_end_eq (l : list T) (h : Heap T) (v : T) (t : Nat)
    (hcnt : l.numElements ≠ 0) (hpt : l.pTail = some t) :
    insert (l, h) none v =
      ((⟨l.numElements + 1, l.pHead, some h.fresh⟩,
        (h.alloc ⟨v, none, l.pTail⟩).1.setNext t (some h.fresh)), some h.fresh) := by
  simp [insert, list.empty, list.size, hcnt, hpt, Heap.alloc_snd]

theorem insert_mid_eq_none (l : list T) (h : Heap T) (v : T) (p : Nat) (pn : Node T)
    (hcnt : l.numElements ≠ 0) (hn : h.nodeAt p = some pn) (hpp : pn.pPrev = none) :
    insert (l, h) (some p) v =
      ((⟨l.numElements + 1, some h.fresh, l.pTail⟩,
        (h.alloc ⟨v, some p, pn.pPrev⟩).1.setPrev p (some h.fresh)), some h.fresh) := by
  simp [insert, list.empty, list.size, hcnt, hn, hpp, Heap.alloc_snd]

theorem insert_mid_eq_some (l : list T) (h : Heap T) (v : T) (p pr : Nat) (pn : Node T)
    (hcnt : l.numElements ≠ 0) (hn : h.nodeAt p = some pn) (hpp : pn.pPrev = some pr) :
    insert (l, h) (some p) v =
      ((⟨l.numElements + 1, l.pHead, l.pTail⟩,
        ((h.alloc ⟨v, some p, pn.pPrev⟩).1.setNext pr (some h.fresh)).setPrev p
          (some h.fresh)), some h.fresh) := by
  simp [insert, list.empty, list.size, hcnt, hn, hpp, Heap.alloc_snd]

theorem insert_empty_spec (h : Heap T) (l : list T) (it : Option Nat) (v : T)
    (hw : WF h l []) :
    (insert (l, h) it v).2 = some h.fresh ∧
    WF (insert (l, h) it v).1.2 (insert (l, h) it v).1.1 [h.fresh] ∧
    values (insert (l, h) it v).1.2 [h.fresh] = [v] ∧
    (insert (l, h) it v).1.1.numElements = 1 ∧
    (insert (l, h) it v).1.1.pHead = some h.fresh ∧
    (insert (l, h) it v).1.1.pTail = some h.fresh ∧
    Frames h (insert (l, h) it v).1.2 [] := by
  obtain ⟨hchain, hhead, htail, hcount, hnodup, hbound⟩ := hw
  rw [insert_empty_eq l h it v hcount]
  have hna : ((h.alloc ⟨v, none, none⟩).1).nodeAt h.fresh = some ⟨v, none, none⟩ := by
    rw [Heap.nodeAt_alloc, if_pos rfl]
  refine ⟨rfl, ⟨isSeg_fresh_single h v, rfl, rfl, rfl, List.nodup_singleton _, ?_⟩, ?_, rfl,
    rfl, rfl, ?_⟩
  · intro a ha
    simp at ha
    subst ha
    rw [Heap.alloc_fst_fresh]
    omega
  · rw [values_cons_live _ _ _ _ hna, values_nil]
  · exact ⟨by rw [Heap.alloc_fst_fresh]; omega, fun b _ hb => by
      rw [Heap.nodeAt_alloc, if_neg (by omega)]⟩

theorem insert_end_spec (h : Heap T) (l : list T) (A : List Nat) (v : T)
    (hw : WF h l A) (hne : A ≠ []) :
    (insert (l, h) none v).1 = push_back (l, h) v ∧
    (insert (l, h) none v).2 = some h.fresh := by
  obtain ⟨hchain, hhead, htail, hcount, hnodup, hbound⟩ := hw
  cases A with
  | nil => exact absurd rfl hne
  | cons a0 A' =>
    have hph : l.pHead = some a0 := by rw [hhead]; rfl
    obtain ⟨t, hpt⟩ : ∃ t, l.pTail = some t := by
      rw [htail]
      cases hg : (a0 :: A').getLast? with
      | none => rw [List.getLast?_eq_none_iff] at hg; simp at hg
      | some t => exact ⟨t, rfl⟩
    have hcnt0 : l.numElements ≠ 0 := by
      rw [hcount]
      simp
    rw [insert_end_eq l h v t hcnt0 hpt, push_back_eq_some l h v a0 t hph hpt]
    exact ⟨rfl, rfl⟩

theorem insert_mid_spec (h : Heap T) (l : list T) (P Q : List Nat) (p : Nat) (v : T)
    (hw : WF h l (P ++ p :: Q)) :
    (insert (l, h) (some p) v).2 = some h.fresh ∧
    WF (insert (l, h) (some p) v).1.2 (insert (l, h) (some p) v).1.1
      (P ++ h.fresh :: p :: Q) ∧
    values (insert (l, h) (some p) v).1.2 (P ++ h.fresh :: p :: Q)
      = values h P ++ v :: values h (p :: Q) ∧
    (insert (l, h) (some p) v).1.1.numElements = l.numElements + 1 ∧
    Frames h (insert (l, h) (some p) v).1.2 (P ++ p :: Q) ∧
    (insert (l, h) (some p) v).1.2.fresh = h.fresh + 1 := by
  obtain ⟨hchain, hhead, htail, hcount, hnodup, hbound⟩ := hw
  have hnd3 := List.nodup_append.mp hnodup
  have hPnd : P.Nodup := hnd3.1
  have hpQnd : (p :: Q).Nodup := hnd3.2.1
  have hdisj : P.Disjoint (p :: Q) := hnd3.2.2
  have hpP : p ∉ P := fun hmem => hdisj hmem (List.mem_cons_self p Q)
  have hpQ : p ∉ Q := (List.nodup_cons.mp hpQnd).1
  have hsplit := hchain
  rw [isSeg_append, Bool.and_eq_true] at hsplit
  obtain ⟨hsegP, hsegAQ⟩ := hsplit
  rw [nextOf_cons] at hsegP
  have hsegAQ' := hsegAQ
  rw [isSeg_cons_iff] at hsegAQ'
  obtain ⟨pn, hn, hpp, hpn, hsegQ⟩ := hsegAQ'
  have hboundP : ∀ b ∈ P, b < h.fresh := fun b hb => hbound b (List.mem_append_left _ hb)
  have hboundp : p < h.fresh := hbound p (List.mem_append_right _ (List.mem_cons_self p Q))
  have hboundQ : ∀ b ∈ Q, b < h.fresh :=
    fun b hb => hbound b (List.mem_append_right _ (List.mem_cons_of_mem p hb))
  have hfP : h.fresh ∉ P := fun hmem => absurd (hboundP _ hmem) (lt_irrefl _)
  have hfQ : h.fresh ∉ Q := fun hmem => absurd (hboundQ _ hmem) (lt_irrefl _)
  have hfp : h.fresh ≠ p := fun he => absurd (he ▸ hboundp) (lt_irrefl _)
  have hcnt0 : l.numElements ≠ 0 := by
    rw [hcount]
    simp
  rw [lastOf_none_arg] at hpp
  cases P with
  | nil =>
    have hpp' : pn.pPrev = none := by rw [hpp]; rfl
    rw [insert_mid_eq_none l h v p pn hcnt0 hn hpp']
    set h2 := (h.alloc ⟨v, some p, pn.pPrev⟩).1 with hh2
    set h4 := h2.setPrev p (some h.fresh) with hh4
    have hnew : h4.nodeAt h.fresh = some ⟨v, some p, none⟩ := by
      rw [hh4, Heap.nodeAt_setPrev, if_neg hfp, hh2, Heap.nodeAt_alloc, if_pos rfl, hpp']
    have hsegpQ2 : isSeg h2 none (p :: Q) none = true := by
      rw [isSeg_congr (h := h)]
      · simpa using hsegAQ
      · intro b hb
        rw [hh2, Heap.nodeAt_alloc, if_neg]
        intro he
        rcases List.mem_cons.mp hb with h1 | h2m
        · omega
        · exact hfQ (he ▸ h2m)
    have hseg4 : isSeg h4 (some h.fresh) (p :: Q) none = true :=
      isSeg_setPrev_head h2 p Q none (some h.fresh) none hpQ hsegpQ2
    have hchain4 : isSeg h4 none (h.fresh :: p :: Q) none = true := by
      rw [isSeg_cons_iff]
      exact ⟨⟨v, some p, none⟩, hnew, rfl, rfl, hseg4⟩
    refine ⟨rfl, ⟨by simpa using hchain4, rfl, ?_, ?_, ?_, ?_⟩, ?_, rfl, ?_, rfl⟩
    · rw [htail]
      simp [List.getLast?_cons_cons]
    · rw [hcount]
      simp
    · simp only [List.nil_append, List.nodup_cons]
      refine ⟨?_, List.nodup_cons.mp hpQnd⟩
      intro hmem
      rcases List.mem_cons.mp hmem with h1 | h2m
      · exact hfp h1
      · exact hfQ h2m
    · intro b hb
      have hfr : h4.fresh = h.fresh + 1 := rfl
      rw [hfr]
      simp only [List.nil_append, List.mem_cons] at hb
      rcases hb with h1 | h2m | h3m
      · omega
      · have := hboundp
        omega
      · have := hboundQ b h3m
        omega
    · simp only [List.nil_append]
      rw [values_cons_live _ _ _ _ hnew]
      have hvv : values h4 (p :: Q) = values h (p :: Q) := by
        rw [hh4, values_setPrev, hh2]
        apply values_alloc
        intro b hb
        rcases List.mem_cons.mp hb with h1 | h2m
        · subst h1
          omega
        · exact fun he => hfQ (he ▸ h2m)
      rw [hvv, values_nil, List.nil_append]
    · refine ⟨by rw [show h4.fresh = h.fresh + 1 from rfl]; omega, ?_⟩
      intro b hb hlt
      have hbp : b ≠ p := fun he => hb (by rw [he]; exact List.mem_cons_self p Q)
      rw [hh4, Heap.nodeAt_setPrev, if_neg hbp, hh2, Heap.nodeAt_alloc, if_neg (by omega)]
  | cons p0 P' =>
    obtain ⟨pr, hpr⟩ : ∃ pr, (p0 :: P').getLast? = some pr := by
      cases hg : (p0 :: P').getLast? with
      | none => rw [List.getLast?_eq_none_iff] at hg; simp at hg
      | some pr => exact ⟨pr, rfl⟩
    have hpp' : pn.pPrev = some pr := by rw [hpp, hpr]
    have hprP : pr ∈ p0 :: P' := by
      have hopt : pr ∈ (p0 :: P').getLast? := by rw [hpr]; rfl
      obtain ⟨hne, heq⟩ := List.mem_getLast?_eq_getLast hopt
      rw [heq]
      exact List.getLast_mem hne
    have hprp : pr ≠ p := fun he => hpP (he ▸ hprP)
    have hprQ : pr ∉ Q := fun hmem => hdisj hprP (List.mem_cons_of_mem p hmem)
    have hprf : pr < h.fresh := hboundP pr hprP
    rw [insert_mid_eq_some l h v p pr pn hcnt0 hn hpp']
    set h2 := (h.alloc ⟨v, some p, pn.pPrev⟩).1 with hh2
    set h3 := h2.setNext pr (some h.fresh) with hh3
    set h4 := h3.setPrev p (some h.fresh) with hh4
    have hnew : h4.nodeAt h.fresh = some ⟨v, some p, some pr⟩ := by
      rw [hh4, Heap.nodeAt_setPrev, if_neg hfp, hh3, Heap.nodeAt_setNext,
        if_neg (by omega), hh2, Heap.nodeAt_alloc, if_pos rfl, hpp']
    have hsegP2 : isSeg h2 none (p0 :: P') (some p) = true := by
      rw [isSeg_congr (h := h)]
      · exact hsegP
      · intro b hb
        rw [hh2, Heap.nodeAt_alloc, if_neg (show b ≠ h.fresh from fun he => hfP (he ▸ hb))]
    have hsegP4 : isSeg h4 none (p0 :: P') (some h.fresh) = true := by
      rw [isSeg_congr (h := h3)]
      · exact isSeg_setNext_last h2 (some h.fresh) (p0 :: P') none pr (some p) hpr hPnd hsegP2
      · intro b hb
        rw [hh4, Heap.nodeAt_setPrev, if_neg (show b ≠ p from fun he => hpP (he ▸ hb))]
    have hsegpQ3 : isSeg h3 (some pr) (p :: Q) none = true := by
      rw [isSeg_congr (h := h)]
      · rw [lastOf_none_arg, hpr] at hsegAQ
        exact hsegAQ
      · intro b hb
        have hbpr : b ≠ pr := by
          rcases List.mem_cons.mp hb with h1 | h2m
          · exact fun he => hprp (he.symm.trans h1)
          · exact fun he => hprQ (he ▸ h2m)
        have hbf : b ≠ h.fresh := by
          rcases List.mem_cons.mp hb with h1 | h2m
          · exact fun he => hfp (he.symm.trans h1)
          · exact fun he => hfQ (he ▸ h2m)
        rw [hh3, Heap.nodeAt_setNext, if_neg hbpr, hh2, Heap.nodeAt_alloc, if_neg hbf]
    have hseg4 : isSeg h4 (some h.fresh) (p :: Q) none = true :=
      isSeg_setPrev_head h3 p Q (some pr) (some h.fresh) none hpQ hsegpQ3
    have hchain4 : isSeg h4 none ((p0 :: P') ++ h.fresh :: p :: Q) none = true := by
      rw [isSeg_append, Bool.and_eq_true]
      refine ⟨by simpa [nextOf_cons] using hsegP4, ?_⟩
      rw [lastOf_none_arg, hpr, isSeg_cons_iff]
      exact ⟨⟨v, some p, some pr⟩, hnew, rfl, rfl, hseg4⟩
    refine ⟨rfl, ⟨hchain4, ?_, ?_, ?_, ?_, ?_⟩, ?_, rfl, ?_, rfl⟩
    · rw [hhead]
      rfl
    · rw [htail, List.getLast?_append_cons, List.getLast?_append_cons,
        List.getLast?_cons_cons]
    · rw [hcount]
      simp
      omega
    · rw [List.nodup_append]
      refine ⟨hPnd, ?_, ?_⟩
      · rw [List.nodup_cons]
        refine ⟨?_, hpQnd⟩
        intro hmem
        rcases List.mem_cons.mp hmem with h1 | h2m
        · exact hfp h1
        · exact hfQ h2m
      · intro x hx hy
        rcases List.mem_cons.mp hy with h1 | h2m
        · exact hfP (h1 ▸ hx)
        · rcases List.mem_cons.mp h2m with h3m | h4m
          · exact hpP (h3m ▸ hx)
          · exact hdisj hx (List.mem_cons_of_mem p h4m)
    · intro b hb
      have hfr : h4.fresh = h.fresh + 1 := rfl
      rw [hfr]
      rcases List.mem_append.mp hb with h1 | h2m
      · have := hboundP b h1
        omega
      · rcases List.mem_cons.mp h2m with h3m | h4m
        · omega
        · rcases List.mem_cons.mp h4m with h5m | h6m
          · have := hboundp
            omega
          · have := hboundQ b h6m
            omega
    · rw [values_append]
      have hdata : ∀ X : List Nat, h.fresh ∉ X → values h4 X = values h X := by
        intro X hX
        rw [hh4, values_setPrev, hh3, values_setNext, hh2]
        exact values_alloc h _ X (fun b hb => fun he => hX (he ▸ hb))
      have hvP : values h4 (p0 :: P') = values h (p0 :: P') := hdata _ hfP
      have hvpQ : values h4 (p :: Q) = values h (p :: Q) := by
        apply hdata
        intro hmem
        rcases List.mem_cons.mp hmem with h1 | h2m
        · exact hfp h1
        · exact hfQ h2m
      rw [hvP, values_cons_live _ _ _ _ hnew, hvpQ]
    · refine ⟨by rw [show h4.fresh = h.fresh + 1 from rfl]; omega, ?_⟩
      intro b hb hlt
      have hbp : b ≠ p := fun he => hb (by
        rw [he]
        exact List.mem_append_right _ (List.mem_cons_self p Q))
      have hbpr : b ≠ pr := fun he => hb (by
        rw [he]
        exact List.mem_append_left _ hprP)
      rw [hh4, Heap.nodeAt_setPrev, if_neg hbp, hh3, Heap.nodeAt_setNext, if_neg hbpr, hh2,
        Heap.nodeAt_alloc, if_neg (by omega)]

/-!  ## clear -/

theorem length_le_mem_length (h : Heap T) (addrs : List Nat) (hnd : addrs.Nodup)
    (hlive : ∀ a ∈ addrs, ∃ n, h.nodeAt a = some n) : addrs.length ≤ h.mem.length := by
  have hsub : addrs ⊆ h.mem.map Prod.fst := by
    intro a ha
    obtain ⟨n, hn⟩ := hlive a ha
    exact Heap.mem_keys_of_nodeAt h a n hn
  have := (List.subperm_of_subset hnd hsub).length_le
  simpa using this

theorem clearLoop_spec (h : Heap T) :
    ∀ (addrs : List Nat) (prev : Option Nat) (fuel cnt : Nat),
      isSeg h prev addrs none = true → addrs.Nodup → addrs.length ≤ fuel →
      (clearLoop fuel h addrs.head? cnt).2 = cnt - addrs.length ∧
      (∀ a ∈ addrs, (clearLoop fuel h addrs.head? cnt).1.nodeAt a = none) ∧
      (∀ b, b ∉ addrs → (clearLoop fuel h addrs.head? cnt).1.nodeAt b = h.nodeAt b) ∧
      (clearLoop fuel h addrs.head? cnt).1.fresh = h.fresh := by
  intro addrs
  induction addrs generalizing h with
  | nil =>
    intro prev fuel cnt _ _ _
    refine ⟨by cases fuel <;> simp [clearLoop], ?_, ?_, by cases fuel <;> rfl⟩
    · intro a ha
      simp at ha
    · intro b _
      cases fuel <;> rfl
  | cons a rest ih =>
    intro prev fuel cnt hseg hnd hfuel
    rw [isSeg_cons_iff] at hseg
    obtain ⟨n, hn, _, hnext, hrest⟩ := hseg
    have haR : a ∉ rest := (List.nodup_cons.mp hnd).1
    have hRnd : rest.Nodup := (List.nodup_cons.mp hnd).2
    obtain ⟨f, rfl⟩ : ∃ f, fuel = f + 1 := by
      cases fuel with
      | zero => simp at hfuel
      | succ f => exact ⟨f, rfl⟩
    have hstep : clearLoop (f + 1) h (a :: rest).head? cnt
        = clearLoop f (h.free a) rest.head? (cnt - 1) := by
      show clearLoop (f + 1) h (some a) cnt = _
      simp only [clearLoop, hn]
      have hbind : ((some n).bind fun x => x.pNext) = n.pNext := rfl
      rw [hbind, hnext, nextOf_none_arg]
    have hsegR : isSeg (h.free a) (some a) rest none = true := by
      rw [isSeg_congr (h := h)]
      · exact hrest
      · intro b hb
        rw [Heap.nodeAt_free, if_neg (show b ≠ a from fun he => haR (he ▸ hb))]
    have hih := ih (h.free a) (some a) f (cnt - 1) hsegR hRnd (by simp at hfuel; omega)
    rw [hstep]
    refine ⟨?_, ?_, ?_, ?_⟩
    · rw [hih.1]
      simp
      omega
    · intro x hx
      rcases List.mem_cons.mp hx with h1 | h2
      · subst h1
        rw [hih.2.2.1 x haR, Heap.nodeAt_free, if_pos rfl]
      · exact hih.2.1 x h2
    · intro b hb
      have hbR : b ∉ rest := fun hm => hb (List.mem_cons_of_mem a hm)
      have hba : b ≠ a := fun he => hb (he ▸ List.mem_cons_self a rest)
      rw [hih.2.2.1 b hbR, Heap.nodeAt_free, if_neg hba]
    · rw [hih.2.2.2]
      rfl

theorem clear_spec (h : Heap T) (l : list T) (A : List Nat) (hw : WF h l A) :
    (clear (l, h)).1 = ⟨0, none, none⟩ ∧
    (∀ a ∈ A, (clear (l, h)).2.nodeAt a = none) ∧
    (∀ b, b ∉ A → (clear (l, h)).2.nodeAt b = h.nodeAt b) ∧
    (clear (l, h)).2.fresh = h.fresh ∧
    WF (clear (l, h)).2 (clear (l, h)).1 [] ∧
    Frames h (clear (l, h)).2 A := by
  obtain ⟨hchain, hhead, htail, hcount, hnodup, hbound⟩ := hw
  have hfuel : A.length ≤ h.mem.length + 1 := by
    have := length_le_mem_length h A hnodup (isSeg_live h A none none hchain)
    omega
  have hspec := clearLoop_spec h A none (h.mem.length + 1) l.numElements hchain hnodup hfuel
  have hcl : clear (l, h) =
      (⟨(clearLoop (h.mem.length + 1) h l.pHead l.numElements).2, none, none⟩,
        (clearLoop (h.mem.length + 1) h l.pHead l.numElements).1) := by
    simp [clear]
  rw [hhead] at hcl
  rw [hcl]
  have hcnt0 : l.numElements - A.length = 0 := by
    rw [hcount]
    omega
  refine ⟨by rw [hspec.1, hcnt0], hspec.2.1, hspec.2.2.1, hspec.2.2.2, ?_, ?_⟩
  · refine ⟨isSeg_nil _ _ _, rfl, rfl, ?_, List.nodup_nil, ?_⟩
    · show (clearLoop (h.mem.length + 1) h A.head? l.numElements).2 = _
      rw [hspec.1, hcnt0]
      rfl
    · intro a ha
      simp at ha
  · exact ⟨le_of_eq hspec.2.2.2.symm, fun b hb _ => hspec.2.2.1 b hb⟩

/-!  ## The assignment loops -/

theorem values_setData_not_mem (h : Heap T) (x : Nat) (v : T) (addrs : List Nat)
    (hx : x ∉ addrs) : values (h.setData x v) addrs = values h addrs := by
  apply values_congr
  intro a ha
  rw [Heap.nodeAt_setData, if_neg (show a ≠ x from fun he => hx (he ▸ ha))]

theorem copyLoop_spec :
    ∀ (LA RB : List Nat) (h : Heap T) (prevL prevR : Option Nat) (fuel : Nat),
      isSeg h prevL LA none = true → isSeg h prevR RB none = true →
      LA.Nodup → (∀ x ∈ LA, x ∉ RB) →
      min LA.length RB.length < fuel →
      (copyLoop fuel h LA.head? RB.head?).2.1
          = (LA.drop (min LA.length RB.length)).head? ∧
      (copyLoop fuel h LA.head? RB.head?).2.2
          = (RB.drop (min LA.length RB.length)).head? ∧
      (∀ b, b ∉ LA → (copyLoop fuel h LA.head? RB.head?).1.nodeAt b = h.nodeAt b) ∧
      (copyLoop fuel h LA.head? RB.head?).1.fresh = h.fresh ∧
      (∀ prev xs nxt, isSeg (copyLoop fuel h LA.head? RB.head?).1 prev xs nxt
          = isSeg h prev xs nxt) ∧
      values (copyLoop fuel h LA.head? RB.head?).1 LA
          = (values h RB).take (min LA.length RB.length)
            ++ (values h LA).drop (min LA.length RB.length) ∧
      values (copyLoop fuel h LA.head? RB.head?).1 RB = values h RB := by
  intro LA
  induction LA with
  | nil =>
    intro RB h prevL prevR fuel _ _ _ _ hfuel
    obtain ⟨f, rfl⟩ : ∃ f, fuel = f + 1 := by
      cases fuel with
      | zero => simp at hfuel
      | succ f => exact ⟨f, rfl⟩
    have hres : copyLoop (f + 1) h ([] : List Nat).head? RB.head? = (h, none, RB.head?) := by
      cases hR : RB.head? <;> rfl
    rw [hres]
    exact ⟨by simp, by simp, fun b _ => rfl, rfl, fun _ _ _ => rfl, by simp [values], rfl⟩
  | cons al LA' ih =>
    intro RB h prevL prevR fuel hsegL hsegR hnd hdisj hfuel
    obtain ⟨f, rfl⟩ : ∃ f, fuel = f + 1 := by
      cases fuel with
      | zero => simp at hfuel
      | succ f => exact ⟨f, rfl⟩
    cases RB with
    | nil =>
      have hres : copyLoop (f + 1) h (al :: LA').head? ([] : List Nat).head?
          = (h, some al, none) := rfl
      rw [hres]
      exact ⟨by simp, by simp, fun b _ => rfl, rfl, fun _ _ _ => rfl, by simp, rfl⟩
    | cons ar RB' =>
      rw [isSeg_cons_iff] at hsegL hsegR
      obtain ⟨nl, hnl, _, hnlnext, hsegL'⟩ := hsegL
      obtain ⟨nr, hnr, _, hnrnext, hsegR'⟩ := hsegR
      have halLA' : al ∉ LA' := (List.nodup_cons.mp hnd).1
      have halRB : al ∉ ar :: RB' := hdisj al (List.mem_cons_self al LA')
      have halar : al ≠ ar := fun he => halRB (he ▸ List.mem_cons_self ar RB')
      have harLA : ar ∉ al :: LA' := fun hm => hdisj ar hm (List.mem_cons_self ar RB')
      set h2 := h.setData al nr.data with hh2
      have hnl2 : h2.nodeAt al = some { nl with data := nr.data } := by
        rw [hh2, Heap.nodeAt_setData, if_pos rfl, hnl]
        rfl
      have hnr2 : h2.nodeAt ar = some nr := by
        rw [hh2, Heap.nodeAt_setData, if_neg (Ne.symm halar), hnr]
      have hstep : copyLoop (f + 1) h (al :: LA').head? (ar :: RB').head?
          = copyLoop f h2 LA'.head? RB'.head? := by
        show copyLoop (f + 1) h (some al) (some ar) = _
        simp only [copyLoop, hnr]
        have hincL : incr h2 (some al) = LA'.head? := by
          simp only [incr, hnl2]
          rw [show ({ nl with data := nr.data } : Node T).pNext = nl.pNext from rfl,
            hnlnext, nextOf_none_arg]
        have hincR : incr h2 (some ar) = RB'.head? := by
          simp only [incr, hnr2]
          rw [hnrnext, nextOf_none_arg]
        rw [← hh2, hincL, hincR]
      have hsegL2 : isSeg h2 (some al) LA' none = true := by
        rw [hh2, isSeg_setData]
        exact hsegL'
      have hsegR2 : isSeg h2 (some ar) RB' none = true := by
        rw [hh2, isSeg_setData]
        exact hsegR'
      have hnd' : LA'.Nodup := (List.nodup_cons.mp hnd).2
      have hdisj' : ∀ x ∈ LA', x ∉ RB' :=
        fun x hx hm => hdisj x (List.mem_cons_of_mem al hx) (List.mem_cons_of_mem ar hm)
      have hfuel' : min LA'.length RB'.length < f := by
        simp only [List.length_cons, Nat.succ_min_succ] at hfuel
        omega
      have hih := ih RB' h2 (some al) (some ar) f hsegL2 hsegR2 hnd' hdisj' hfuel'
      rw [hstep]
      have hk : min (al :: LA').length (ar :: RB').length
          = min LA'.length RB'.length + 1 := by
        simp [Nat.succ_min_succ]
      set k := min LA'.length RB'.length with hkdef
      have hvRB'2 : values h2 RB' = values h RB' := by
        rw [hh2]
        exact values_setData_not_mem h al nr.data RB'
          (fun hm => halRB (List.mem_cons_of_mem ar hm))
      have hvLA'2 : values h2 LA' = values h LA' := by
        rw [hh2]
        exact values_setData_not_mem h al nr.data LA' halLA'
      refine ⟨?_, ?_, ?_, ?_, ?_, ?_, ?_⟩
      · rw [hih.1, hk, List.drop_succ_cons]
      · rw [hih.2.1, hk, List.drop_succ_cons]
      · intro b hb
        have hbLA' : b ∉ LA' := fun hm => hb (List.mem_cons_of_mem al hm)
        have hbal : b ≠ al := fun he => hb (he ▸ List.mem_cons_self al LA')
        rw [hih.2.2.1 b hbLA', hh2, Heap.nodeAt_setData, if_neg hbal]
      · rw [hih.2.2.2.1, hh2]
        rfl
      · intro prev xs nxt
        rw [hih.2.2.2.2.1, hh2, isSeg_setData]
      · have hfal : (copyLoop f h2 LA'.head? RB'.head?).1.nodeAt al
            = some { nl with data := nr.data } := by
          rw [hih.2.2.1 al halLA', hnl2]
        rw [values_cons_live _ _ _ _ hfal, hih.2.2.2.2.2.1, hvRB'2, hvLA'2, hk,
          values_cons_live h ar nr RB' hnr, values_cons_live h al nl LA' hnl]
        simp [List.take_succ_cons, List.drop_succ_cons]
      · have hfar : (copyLoop f h2 LA'.head? RB'.head?).1.nodeAt ar = some nr := by
          rw [hih.2.2.1 ar (fun hm => harLA (List.mem_cons_of_mem al hm) : ar ∉ LA'),  hnr2]
        rw [values_cons_live _ _ _ _ hfar, values_cons_live h ar nr RB' hnr,
          hih.2.2.2.2.2.2, hvRB'2]

theorem appendLoop_spec :
    ∀ (RB2 : List Nat) (h : Heap T) (l : list T) (A : List Nat) (prevR : Option Nat)
      (fuel : Nat),
      WF h l A → isSeg h prevR RB2 none = true →
      (∀ x ∈ RB2, x < h.fresh) → (∀ x ∈ RB2, x ∉ A) →
      RB2.length < fuel →
      ∃ A2 : List Nat,
        WF (appendLoop fuel l h RB2.head?).2 (appendLoop fuel l h RB2.head?).1 (A ++ A2) ∧
        values (appendLoop fuel l h RB2.head?).2 (A ++ A2)
          = values h A ++ values h RB2 ∧
        (appendLoop fuel l h RB2.head?).1.numElements = l.numElements + RB2.length ∧
        Frames h (appendLoop fuel l h RB2.head?).2 A ∧
        (∀ x ∈ A2, h.fresh ≤ x) := by
  intro RB2
  induction RB2 with
  | nil =>
    intro h l A prevR fuel hw _ _ _ _
    have hres : appendLoop fuel l h ([] : List Nat).head? = (l, h) := by
      cases fuel <;> rfl
    rw [hres]
    refine ⟨[], by simpa using hw, by simp [values], by simp, Frames_refl h A, ?_⟩
    intro x hx
    simp at hx
  | cons ar RB2' ih =>
    intro h l A prevR fuel hw hseg hlt hnA hfuel
    obtain ⟨f, rfl⟩ : ∃ f, fuel = f + 1 := by
      cases fuel with
      | zero => simp at hfuel
      | succ f => exact ⟨f, rfl⟩
    rw [isSeg_cons_iff] at hseg
    obtain ⟨nr, hnr, _, hnrnext, hseg'⟩ := hseg
    have harA : ar ∉ A := hnA ar (List.mem_cons_self ar RB2')
    have harf : ar < h.fresh := hlt ar (List.mem_cons_self ar RB2')
    have hpb := push_back_spec h l A nr.data hw
    obtain ⟨hw2, hvals2, hfr2, hcnt2, hfresh2⟩ := hpb
    have hnr2 : (push_back (l, h) nr.data).2.nodeAt ar = some nr := by
      rw [hfr2.2 ar harA harf, hnr]
    have hstep : appendLoop (f + 1) l h (ar :: RB2').head?
        = appendLoop f (push_back (l, h) nr.data).1 (push_back (l, h) nr.data).2
            RB2'.head? := by
      show appendLoop (f + 1) l h (some ar) = _
      simp only [appendLoop, hnr]
      have hinc : incr (push_back (l, h) nr.data).2 (some ar) = RB2'.head? := by
        simp only [incr, hnr2]
        rw [hnrnext, nextOf_none_arg]
      rw [← hinc]
      rfl
    have hseg2 : isSeg (push_back (l, h) nr.data).2 (some ar) RB2' none = true := by
      rw [isSeg_congr (h := h)]
      · exact hseg'
      · intro b hb
        exact hfr2.2 b (hnA b (List.mem_cons_of_mem ar hb))
          (hlt b (List.mem_cons_of_mem ar hb))
    have hlt2 : ∀ x ∈ RB2', x < (push_back (l, h) nr.data).2.fresh := by
      intro x hx
      rw [hfresh2]
      have := hlt x (List.mem_cons_of_mem ar hx)
      omega
    have hnA2 : ∀ x ∈ RB2', x ∉ A ++ [h.fresh] := by
      intro x hx hmem
      rcases List.mem_append.mp hmem with h1 | h2
      · exact hnA x (List.mem_cons_of_mem ar hx) h1
      · have hxlt := hlt x (List.mem_cons_of_mem ar hx)
        simp at h2
        subst h2
        exact absurd hxlt (lt_irrefl _)
    have hfuel2 : RB2'.length < f := by
      simp at hfuel
      omega
    obtain ⟨A2', hwF, hvalsF, hcntF, hframesF, hgeF⟩ :=
      ih (push_back (l, h) nr.data).2 (push_back (l, h) nr.data).1 (A ++ [h.fresh])
        (some ar) f hw2 hseg2 hlt2 hnA2 hfuel2
    rw [hstep]
    refine ⟨h.fresh :: A2', ?_, ?_, ?_, ?_, ?_⟩
    · have : A ++ h.fresh :: A2' = (A ++ [h.fresh]) ++ A2' := by
        rw [List.append_assoc]
        rfl
      rw [this]
      exact hwF
    · have hassoc : A ++ h.fresh :: A2' = (A ++ [h.fresh]) ++ A2' := by
        rw [List.append_assoc]
        rfl
      rw [hassoc, hvalsF, hvals2]
      have hvRB2' : values (push_back (l, h) nr.data).2 RB2' = values h RB2' := by
        apply values_congr
        intro b hb
        rw [hfr2.2 b (hnA b (List.mem_cons_of_mem ar hb)) (hlt b (List.mem_cons_of_mem ar hb))]
      rw [hvRB2', values_cons_live h ar nr RB2' hnr, List.append_assoc]
      rfl
    · rw [hcntF, hcnt2]
      simp
      omega
    · refine Frames_trans h (push_back (l, h) nr.data).2 _ A (A ++ [h.fresh]) hfr2 hframesF ?_
      intro b hb
      rcases List.mem_append.mp hb with h1 | h2
      · exact Or.inl h1
      · simp at h2
        subst h2
        exact Or.inr (le_refl _)
    · intro x hx
      rcases List.mem_cons.mp hx with h1 | h2
      · subst h1
        exact le_refl _
      · have := hgeF x h2
        rw [hfresh2] at this
        omega

theorem eraseLoop_spec :
    ∀ (Q : List Nat) (h : Heap T) (l : list T) (P : List Nat) (fuel : Nat),
      WF h l (P ++ Q) → Q.length < fuel →
      WF (eraseLoop fuel l h Q.head?).2 (eraseLoop fuel l h Q.head?).1 P ∧
      values (eraseLoop fuel l h Q.head?).2 P = values h P ∧
      Frames h (eraseLoop fuel l h Q.head?).2 (P ++ Q) ∧
      (∀ a ∈ Q, (eraseLoop fuel l h Q.head?).2.nodeAt a = none) ∧
      (eraseLoop fuel l h Q.head?).2.fresh = h.fresh ∧
      (eraseLoop fuel l h Q.head?).1.numElements = l.numElements - Q.length := by
  intro Q
  induction Q with
  | nil =>
    intro h l P fuel hw _
    have hres : eraseLoop fuel l h ([] : List Nat).head? = (l, h) := by
      cases fuel <;> rfl
    rw [hres]
    refine ⟨by simpa using hw, rfl, ?_, ?_, rfl, by simp⟩
    · rw [List.append_nil]
      exact Frames_refl h P
    · intro a ha
      simp at ha
  | cons q Q' ih =>
    intro h l P fuel hw hfuel
    obtain ⟨f, rfl⟩ : ∃ f, fuel = f + 1 := by
      cases fuel with
      | zero => simp at hfuel
      | succ f => exact ⟨f, rfl⟩
    have hsp := erase_spec h l P Q' q hw
    obtain ⟨hret, hwE, _, hvPE, hvQE, hcntE, hframesE, hqE, hfreshE⟩ := hsp
    have hstep : eraseLoop (f + 1) l h ((q :: Q') : List Nat).head?
        = eraseLoop f (erase (l, h) (some q)).1.1 (erase (l, h) (some q)).1.2
            (erase (l, h) (some q)).2 := by
      rfl
    rw [hstep, hret]
    have hih := ih (erase (l, h) (some q)).1.2 (erase (l, h) (some q)).1.1 P f hwE
      (by simp at hfuel; omega)
    obtain ⟨hwF, hvF, hframesF, hdeadF, hfreshF, hcntF⟩ := hih
    refine ⟨hwF, by rw [hvF, hvPE], ?_, ?_, by rw [hfreshF, hfreshE], ?_⟩
    · refine Frames_trans h (erase (l, h) (some q)).1.2 _ (P ++ q :: Q') (P ++ q :: Q')
        hframesE ?_ (fun b hb => Or.inl hb)
      refine ⟨le_of_eq ?_, ?_⟩
      · rw [hfreshF, hfreshE]
      · intro b hb hblt
        apply hframesF.2 b
        · intro hmem
          rcases List.mem_append.mp hmem with h1 | h2
          · exact hb (List.mem_append_left _ h1)
          · exact hb (List.mem_append_right _ (List.mem_cons_of_mem q h2))
        · exact hblt
    · intro a ha
      rcases List.mem_cons.mp ha with h1 | h2
      · subst h1
        have hnd3 := List.nodup_append.mp hw.nodup
        have hqP : a ∉ P := fun hm => hnd3.2.2 hm (List.mem_cons_self a Q')
        have hqQ' : a ∉ Q' := (List.nodup_cons.mp hnd3.2.1).1
        have hqlt : a < h.fresh :=
          hw.bounded a (List.mem_append_right _ (List.mem_cons_self a Q'))
        have haPQ : a ∉ P ++ Q' := by
          intro hm
          rcases List.mem_append.mp hm with hh | hh
          · exact hqP hh
          · exact hqQ' hh
        rw [hframesF.2 a haPQ (by rw [hfreshE]; exact hqlt), hqE]
      · exact hdeadF a h2
    · rw [hcntF, hcntE]
      simp
      omega

theorem assignCopy_unfold (lA lB : list T) (h : Heap T) :
    assignCopy lA lB h =
      (if (copyLoop (lA.numElements + lB.numElements + 1) h lA.pHead lB.pHead).2.2 ≠ none then
        appendLoop (lB.numElements + 1) lA
          (copyLoop (lA.numElements + lB.numElements + 1) h lA.pHead lB.pHead).1
          (copyLoop (lA.numElements + lB.numElements + 1) h lA.pHead lB.pHead).2.2
      else if lB.empty then
        clear (lA, (copyLoop (lA.numElements + lB.numElements + 1) h lA.pHead lB.pHead).1)
      else if (copyLoop (lA.numElements + lB.numElements + 1) h lA.pHead lB.pHead).2.1
          ≠ none then
        eraseLoop (lA.numElements + 1) lA
          (copyLoop (lA.numElements + lB.numElements + 1) h lA.pHead lB.pHead).1
          (copyLoop (lA.numElements + lB.numElements + 1) h lA.pHead lB.pHead).2.1
      else (lA, (copyLoop (lA.numElements + lB.numElements + 1) h lA.pHead lB.pHead).1)) :=
  rfl

/-- A well-formed list transfers across a heap change that preserves all
segments and the fresh counter. -/
theorem WF_transfer (h h2 : Heap T) (l : list T) (A : List Nat) (hw : WF h l A)
    (hseg : ∀ prev xs nxt, isSeg h2 prev xs nxt = isSeg h prev xs nxt)
    (hfr : h2.fresh = h.fresh) : WF h2 l A :=
  ⟨by rw [hseg]; exact hw.chain, hw.head_eq, hw.tail_eq, hw.count_eq, hw.nodup,
    fun a ha => hfr ▸ hw.bounded a ha⟩

theorem assignCopy_spec (h : Heap T) (lA lB : list T) (A B : List Nat)
    (hwA : WF h lA A) (hwB : WF h lB B) (hdisj : ∀ x ∈ A, x ∉ B) :
    ∃ A2 : List Nat,
      WF (assignCopy lA lB h).2 (assignCopy lA lB h).1 A2 ∧
      values (assignCopy lA lB h).2 A2 = values h B ∧
      WF (assignCopy lA lB h).2 lB B ∧
      values (assignCopy lA lB h).2 B = values h B ∧
      (∀ x ∈ A2, x ∉ B) ∧
      (assignCopy lA lB h).1.numElements = lB.numElements ∧
      Frames h (assignCopy lA lB h).2 A := by
  have hfuel : min A.length B.length < lA.numElements + lB.numElements + 1 := by
    rw [hwA.count_eq, hwB.count_eq]
    omega
  obtain ⟨hitL, hitR, hfrm, hfr, hsegEq, hvA2, hvB2⟩ :=
    copyLoop_spec A B h none none (lA.numElements + lB.numElements + 1) hwA.chain hwB.chain
      hwA.nodup hdisj hfuel
  rw [assignCopy_unfold lA lB h, hwA.head_eq, hwB.head_eq]
  set CP := copyLoop (lA.numElements + lB.numElements + 1) h A.head? B.head? with hCP
  have hwA2 : WF CP.1 lA A := WF_transfer h CP.1 lA A hwA hsegEq hfr
  have hwB2 : WF CP.1 lB B := WF_transfer h CP.1 lB B hwB hsegEq hfr
  have hFrames2 : Frames h CP.1 A := ⟨le_of_eq hfr.symm, fun b hb _ => hfrm b hb⟩
  have hlenvB : (values h B).length = B.length := values_length h B none none hwB.chain
  have hlenvA : (values h A).length = A.length := values_length h A none none hwA.chain
  rcases Nat.lt_or_ge A.length B.length with hAB | hBA
  · -- source longer: the append branch runs
    have hk : min A.length B.length = A.length := Nat.min_eq_left (le_of_lt hAB)
    rw [hk] at hitL hitR hvA2
    have hdropBne : B.drop A.length ≠ [] := by
      intro hnil
      have := List.drop_eq_nil_iff_le.mp hnil
      omega
    obtain ⟨x, xs, hxs⟩ : ∃ x xs, B.drop A.length = x :: xs := by
      cases hd : B.drop A.length with
      | nil => exact absurd hd hdropBne
      | cons x xs => exact ⟨x, xs, rfl⟩
    have hcond : CP.2.2 ≠ none := by
      rw [hitR, hxs]
      simp
    rw [if_pos hcond, hitR]
    have hsplitB := hwB.chain
    rw [← List.take_append_drop A.length B, isSeg_append, Bool.and_eq_true] at hsplitB
    have hsegDropH : isSeg h (lastOf (B.take A.length) none) (B.drop A.length) none = true :=
      hsplitB.2
    have hsegDrop : isSeg CP.1 (lastOf (B.take A.length) none) (B.drop A.length) none
        = true := by
      rw [hsegEq]
      exact hsegDropH
    have hboundsDrop : ∀ y ∈ B.drop A.length, y < CP.1.fresh := by
      intro y hy
      rw [hfr]
      exact hwB.bounded y (List.mem_of_mem_drop hy)
    have hnotADrop : ∀ y ∈ B.drop A.length, y ∉ A := by
      intro y hy hyA
      exact hdisj y hyA (List.mem_of_mem_drop hy)
    have hfuel2 : (B.drop A.length).length < lB.numElements + 1 := by
      rw [List.length_drop, hwB.count_eq]
      omega
    obtain ⟨A2', hwF, hvalsF, hcntF, hframesF, hge⟩ :=
      appendLoop_spec (B.drop A.length) CP.1 lA A (lastOf (B.take A.length) none)
        (lB.numElements + 1) hwA2 hsegDrop hboundsDrop hnotADrop hfuel2
    have hvDrop : values CP.1 (B.drop A.length) = values h (B.drop A.length) := by
      apply values_congr
      intro b hb
      rw [hfrm b (hnotADrop b hb)]
    have hvTakeLen : (values h (B.take A.length)).length = A.length := by
      have := values_length h (B.take A.length) none
        (nextOf (B.drop A.length) none) hsplitB.1
      rw [this, List.length_take]
      omega
    have hBvals : values h B = values h (B.take A.length) ++ values h (B.drop A.length) := by
      conv =>
        lhs
        rw [← List.take_append_drop A.length B]
      rw [values_append]
    refine ⟨A ++ A2', hwF, ?_, ?_, ?_, ?_, ?_, ?_⟩
    · rw [hvalsF, hvA2, hvDrop]
      have hdropA : (values h A).drop A.length = [] := by
        rw [← hlenvA]
        exact List.drop_length _
      rw [hdropA, List.append_nil, hBvals, List.take_left' hvTakeLen]
    · exact (WF_of_frames CP.1 _ lB B A hwB2 hframesF
        (fun b hb hbA => hdisj b hbA hb)).1
    · rw [(WF_of_frames CP.1 _ lB B A hwB2 hframesF
        (fun b hb hbA => hdisj b hbA hb)).2, hvB2]
    · intro y hy hyB
      rcases List.mem_append.mp hy with h1 | h2
      · exact hdisj y h1 hyB
      · have h3 := hge y h2
        rw [hfr] at h3
        exact absurd (hwB.bounded y hyB) (not_lt.mpr h3)
    · rw [hcntF, List.length_drop, hwA.count_eq, hwB.count_eq]
      omega
    · refine Frames_trans h CP.1 _ A A hFrames2 hframesF (fun b hb => Or.inl hb)
  · -- source not longer
    have hk : min A.length B.length = B.length := Nat.min_eq_right hBA
    rw [hk] at hitL hitR hvA2
    have hitR' : CP.2.2 = none := by
      rw [hitR, List.drop_length]
      rfl
    rw [if_neg (by rw [hitR']; simp)]
    by_cases hBnil : B = []
    · subst hBnil
      have hempty : lB.empty = true := by
        simp [list.empty, list.size, hwB.count_eq]
      rw [if_pos hempty]
      obtain ⟨hcl1, _, _, _, hclWF, hclFrames⟩ := clear_spec CP.1 lA A hwA2
      refine ⟨[], hclWF, by simp [values], ?_, by simp [values], ?_, ?_, ?_⟩
      · exact ⟨isSeg_nil _ _ _, hwB.head_eq, hwB.tail_eq, hwB.count_eq, List.nodup_nil,
          fun a ha => by simp at ha⟩
      · intro y hy
        simp at hy
      · rw [hcl1]
        have := hwB.count_eq
        simp at this
        rw [this]
      · exact Frames_trans h CP.1 _ A A hFrames2 hclFrames (fun b hb => Or.inl hb)
    · have hempty : lB.empty = false := by
        simp [list.empty, list.size, hwB.count_eq]
        exact hBnil
      rw [if_neg (by rw [hempty]; simp)]
      rcases Nat.lt_or_ge B.length A.length with hBA2 | hge2
      · -- destination longer: the erase branch runs
        obtain ⟨x, xs, hxs⟩ : ∃ x xs, A.drop B.length = x :: xs := by
          cases hd : A.drop B.length with
          | nil =>
            have := List.drop_eq_nil_iff_le.mp hd
            omega
          | cons x xs => exact ⟨x, xs, rfl⟩
        rw [if_pos (by rw [hitL, hxs]; simp), hitL]
        have hwA2' : WF CP.1 lA (A.take B.length ++ A.drop B.length) := by
          rw [List.take_append_drop]
          exact hwA2
        have hfuel3 : (A.drop B.length).length < lA.numElements + 1 := by
          rw [List.length_drop, hwA.count_eq]
          omega
        obtain ⟨hwF, hvF, hframesF, hdeadF, hfreshF, hcntF⟩ :=
          eraseLoop_spec (A.drop B.length) CP.1 lA (A.take B.length)
            (lA.numElements + 1) hwA2' hfuel3
        have hsplitA2 := hwA2.chain
        rw [← List.take_append_drop B.length A, isSeg_append, Bool.and_eq_true] at hsplitA2
        have hvTakeLen2 : (values CP.1 (A.take B.length)).length = B.length := by
          have := values_length CP.1 (A.take B.length) none
            (nextOf (A.drop B.length) none) hsplitA2.1
          rw [this, List.length_take]
          omega
        refine ⟨A.take B.length, hwF, ?_, ?_, ?_, ?_, ?_, ?_⟩
        · rw [hvF]
          have hsplitVal : values CP.1 A
              = values CP.1 (A.take B.length) ++ values CP.1 (A.drop B.length) := by
            conv =>
              lhs
              rw [← List.take_append_drop B.length A]
            rw [values_append]
          have htake : values CP.1 (A.take B.length) = (values CP.1 A).take B.length := by
            rw [hsplitVal, List.take_left' hvTakeLen2]
          rw [htake, hvA2]
          have hlen1 : (List.take B.length (values h B)).length = B.length := by
            rw [List.length_take, hlenvB]
            simp
          rw [List.take_left' hlen1, ← hlenvB]
          exact List.take_length _
        · exact (WF_of_frames CP.1 _ lB B (A.take B.length ++ A.drop B.length) hwB2 hframesF
            (fun b hb hbA => by
              rw [List.take_append_drop] at hbA
              exact hdisj b hbA hb)).1
        · rw [(WF_of_frames CP.1 _ lB B (A.take B.length ++ A.drop B.length) hwB2 hframesF
            (fun b hb hbA => by
              rw [List.take_append_drop] at hbA
              exact hdisj b hbA hb)).2, hvB2]
        · intro y hy hyB
          exact hdisj y (List.mem_of_mem_take hy) hyB
        · rw [hcntF, List.length_drop, hwA.count_eq, hwB.count_eq]
          omega
        · refine Frames_trans h CP.1 _ A (A.take B.length ++ A.drop B.length) hFrames2 ?_ ?_
          · exact hframesF
          · intro b hb
            rw [List.take_append_drop] at hb
            exact Or.inl hb
      · -- equal lengths: the fall-through branch
        have heqlen : A.length = B.length := le_antisymm hge2 hBA
        have hitL' : CP.2.1 = none := by
          rw [hitL, ← heqlen, List.drop_length]
          rfl
        rw [if_neg (by rw [hitL']; simp)]
        refine ⟨A, hwA2, ?_, hwB2, hvB2, hdisj, ?_, hFrames2⟩
        · rw [hvA2]
          have htakefull : (values h B).take B.length = values h B := by
            rw [← hlenvB]
            exact List.take_length _
          have hdropfull : (values h A).drop B.length = [] := by
            rw [← heqlen, ← hlenvA]
            exact List.drop_length _
          rw [htakefull, hdropfull, List.append_nil]
        · rw [hwA.count_eq, hwB.count_eq, heqlen]

theorem initLoop_spec :
    ∀ (xs : List T) (LA P : List Nat) (h : Heap T) (l : list T),
      WF h l (P ++ LA) →
      ∃ A2 : List Nat,
        (initLoop l h LA.head? xs).2.2 = (LA.drop xs.length).head? ∧
        WF (initLoop l h LA.head? xs).2.1 (initLoop l h LA.head? xs).1
          (P ++ (LA.take xs.length ++ (A2 ++ LA.drop xs.length))) ∧
        values (initLoop l h LA.head? xs).2.1
            (P ++ (LA.take xs.length ++ (A2 ++ LA.drop xs.length)))
          = values h P ++ xs ++ values h (LA.drop xs.length) ∧
        (initLoop l h LA.head? xs).1.numElements
          = l.numElements + (xs.length - LA.length) ∧
        Frames h (initLoop l h LA.head? xs).2.1 (P ++ LA) ∧
        (∀ x ∈ A2, h.fresh ≤ x) ∧
        (xs.length ≤ LA.length → A2 = []) := by
  intro xs
  induction xs with
  | nil =>
    intro LA P h l hw
    refine ⟨[], by simp [initLoop], ?_, ?_, by simp [initLoop], Frames_refl _ _, ?_,
      fun _ => rfl⟩
    · simpa using hw
    · have hsplit : values h (P ++ LA) = values h P ++ values h LA := values_append h P LA
      simpa using hsplit
    · intro x hx
      simp at hx
  | cons x xs' ih =>
    intro LA P h l hw
    cases LA with
    | nil =>
      -- itLhs == end(): push_back, iterator stays null
      have hwP : WF h l P := by simpa using hw
      obtain ⟨hw2, hvals2, hfr2, hcnt2, hfresh2⟩ := push_back_spec h l P x hwP
      have hstep : initLoop l h ([] : List Nat).head? (x :: xs')
          = initLoop (push_back (l, h) x).1 (push_back (l, h) x).2
              (incr (push_back (l, h) x).2 none) xs' := rfl
      have hincr : incr (push_back (l, h) x).2 none = ([] : List Nat).head? := rfl
      rw [hstep, hincr]
      have hw2' : WF (push_back (l, h) x).2 (push_back (l, h) x).1 ((P ++ [h.fresh]) ++ []) :=
        by simpa using hw2
      obtain ⟨A2', hit', hwF, hvalsF, hcntF, hframesF, hgeF, _⟩ :=
        ih [] (P ++ [h.fresh]) (push_back (l, h) x).2 (push_back (l, h) x).1 hw2'
      refine ⟨h.fresh :: A2', by simpa using hit', ?_, ?_, ?_, ?_, ?_, ?_⟩
      · have hassoc : P ++ ([] ++ (h.fresh :: A2' ++ [])) = (P ++ [h.fresh]) ++ ([] ++ (A2' ++ [])) := by
          simp
        simp only [List.take_nil, List.drop_nil] at hwF ⊢
        rw [show P ++ ([] ++ (h.fresh :: A2' ++ [])) = (P ++ [h.fresh]) ++ ([] ++ (A2' ++ []))
          from by simp]
        exact hwF
      · simp only [List.take_nil, List.drop_nil] at hvalsF ⊢
        rw [show P ++ ([] ++ (h.fresh :: A2' ++ [])) = (P ++ [h.fresh]) ++ ([] ++ (A2' ++ []))
          from by simp]
        rw [hvalsF]
        have hvP2 : values (push_back (l, h) x).2 (P ++ [h.fresh]) = values h P ++ [x] := by
          simpa using hvals2
        rw [hvP2]
        simp [values]
      · rw [hcntF, hcnt2]
        simp
        omega
      · have hframesF' : Frames (push_back (l, h) x).2
            (initLoop (push_back (l, h) x).1 (push_back (l, h) x).2 ([] : List Nat).head? xs').2.1
            (P ++ [h.fresh]) := by simpa using hframesF
        refine Frames_trans h (push_back (l, h) x).2 _ (P ++ []) (P ++ [h.fresh])
          (by simpa using hfr2) hframesF' ?_
        intro b hb
        rcases List.mem_append.mp hb with h1 | h2
        · exact Or.inl (by simpa using h1)
        · simp at h2
          subst h2
          exact Or.inr (le_refl _)
      · intro y hy
        rcases List.mem_cons.mp hy with h1 | h2
        · subst h1
          exact le_refl _
        · have := hgeF y h2
          rw [hfresh2] at this
          omega
      · intro hle
        simp at hle
    | cons la LA'' =>
      -- overwrite *itLhs and advance
      have hchain := hw.chain
      rw [isSeg_append, Bool.and_eq_true] at hchain
      obtain ⟨hsegP, hsegLA⟩ := hchain
      rw [isSeg_cons_iff] at hsegLA
      obtain ⟨nla, hnla, _, hlanext, hsegLA''⟩ := hsegLA
      have hnd3 := List.nodup_append.mp hw.nodup
      have hlaP : la ∉ P := fun hm => hnd3.2.2 hm (List.mem_cons_self la LA'')
      have hlaLA'' : la ∉ LA'' := (List.nodup_cons.mp hnd3.2.1).1
      set h2 := h.setData la x with hh2
      have hnla2 : h2.nodeAt la = some { nla with data := x } := by
        rw [hh2, Heap.nodeAt_setData, if_pos rfl, hnla]
        rfl
      have hstep : initLoop l h ((la :: LA'') : List Nat).head? (x :: xs')
          = initLoop l h2 (incr h2 (some la)) xs' := rfl
      have hincr : incr h2 (some la) = LA''.head? := by
        simp only [incr, hnla2]
        rw [show ({ nla with data := x } : Node T).pNext = nla.pNext from rfl, hlanext,
          nextOf_none_arg]
      rw [hstep, hincr]
      have hw2 : WF h2 l ((P ++ [la]) ++ LA'') := by
        refine ⟨?_, ?_, ?_, ?_, ?_, ?_⟩
        · rw [hh2, isSeg_setData]
          have := hw.chain
          simpa using this
        · have := hw.head_eq
          simpa using this
        · have := hw.tail_eq
          simpa using this
        · have := hw.count_eq
          simpa using this
        · have := hw.nodup
          simpa using this
        · intro a ha
          rw [show h2.fresh = h.fresh from rfl]
          exact hw.bounded a (by simpa using ha)
      obtain ⟨A2', hit', hwF, hvalsF, hcntF, hframesF, hgeF, hnilF⟩ :=
        ih LA'' (P ++ [la]) h2 l hw2
      have hchainEq : (P ++ [la]) ++ (LA''.take xs'.length ++ (A2' ++ LA''.drop xs'.length))
          = P ++ ((la :: LA'').take (x :: xs').length
              ++ (A2' ++ (la :: LA'').drop (x :: xs').length)) := by
        simp [List.take_succ_cons, List.drop_succ_cons]
      refine ⟨A2', ?_, ?_, ?_, ?_, ?_, ?_, ?_⟩
      · rw [hit']
        simp [List.drop_succ_cons]
      · rw [← hchainEq]
        exact hwF
      · rw [← hchainEq, hvalsF]
        have hvP : values h2 (P ++ [la]) = values h P ++ [x] := by
          rw [values_append, hh2, values_setData_not_mem h la x P hlaP,
            values_cons_live (h.setData la x) la { nla with data := x } [] hnla2, values_nil]
        have hvD : values h2 (LA''.drop xs'.length) = values h (LA''.drop xs'.length) := by
          rw [hh2]
          exact values_setData_not_mem h la x _
            (fun hm => hlaLA'' (List.mem_of_mem_drop hm))
        rw [hvP, hvD]
        simp [List.drop_succ_cons]
      · rw [hcntF]
        simp
      · refine Frames_trans h h2 _ (P ++ la :: LA'') ((P ++ [la]) ++ LA'') ?_ hframesF ?_
        · refine ⟨le_of_eq (show h.fresh = h2.fresh from rfl), ?_⟩
          intro b hb _
          have hbla : b ≠ la := fun he => hb (by
            rw [he]
            exact List.mem_append_right _ (List.mem_cons_self la LA''))
          rw [hh2, Heap.nodeAt_setData, if_neg hbla]
        · intro b hb
          exact Or.inl (by simpa using hb)
      · intro y hy
        have := hgeF y hy
        rw [show h2.fresh = h.fresh from rfl] at this
        exact this
      · intro hle
        apply hnilF
        simp at hle
        omega

theorem assignInit_unfold (lhs : list T) (h : Heap T) (rhs : List T) :
    assignInit lhs h rhs =
      (if (initLoop lhs h lhs.pHead rhs).2.2 ≠ none then
        eraseLoop ((initLoop lhs h lhs.pHead rhs).1.numElements + 1)
          (initLoop lhs h lhs.pHead rhs).1 (initLoop lhs h lhs.pHead rhs).2.1
          (initLoop lhs h lhs.pHead rhs).2.2
      else ((initLoop lhs h lhs.pHead rhs).1, (initLoop lhs h lhs.pHead rhs).2.1)) :=
  rfl

theorem assignInit_spec (h : Heap T) (l : list T) (A : List Nat) (xs : List T)
    (hw : WF h l A) :
    ∃ A2 : List Nat,
      WF (assignInit l h xs).2 (assignInit l h xs).1 A2 ∧
      values (assignInit l h xs).2 A2 = xs ∧
      (assignInit l h xs).1.numElements = xs.length ∧
      A2.take (min A.length xs.length) = A.take (min A.length xs.length) ∧
      (∀ a ∈ A.drop xs.length, (assignInit l h xs).2.nodeAt a = none) ∧
      Frames h (assignInit l h xs).2 A := by
  have hw' : WF h l ([] ++ A) := by simpa using hw
  obtain ⟨A2', hit, hwF, hvalsF, hcntF, hframesF, hgeF, hnilF⟩ :=
    initLoop_spec xs A [] h l hw'
  rw [assignInit_unfold, hw.head_eq]
  rcases Nat.lt_or_ge xs.length A.length with hlt | hge
  · -- literal shorter: surplus nodes are erased
    have hnilA2 : A2' = [] := hnilF (le_of_lt hlt)
    subst hnilA2
    obtain ⟨q, Q', hdrop⟩ : ∃ q Q', A.drop xs.length = q :: Q' := by
      cases hd : A.drop xs.length with
      | nil =>
        have := List.drop_eq_nil_iff.mp hd
        omega
      | cons q Q' => exact ⟨q, Q', rfl⟩
    rw [if_pos (by rw [hit, hdrop]; simp), hit]
    have hwF' : WF (initLoop l h A.head? xs).2.1 (initLoop l h A.head? xs).1
        (A.take xs.length ++ A.drop xs.length) := by
      have := hwF
      simpa using this
    have hcnt2 : (initLoop l h A.head? xs).1.numElements = l.numElements := by
      rw [hcntF]
      omega
    have hfuel : (A.drop xs.length).length < (initLoop l h A.head? xs).1.numElements + 1 := by
      rw [hcnt2, hw.count_eq, List.length_drop]
      omega
    obtain ⟨hwE, hvE, hframesE, hdeadE, hfreshE, hcntE⟩ :=
      eraseLoop_spec (A.drop xs.length) (initLoop l h A.head? xs).2.1
        (initLoop l h A.head? xs).1 (A.take xs.length)
        ((initLoop l h A.head? xs).1.numElements + 1) hwF' hfuel
    have hsplitA := hwF'.chain
    rw [isSeg_append, Bool.and_eq_true] at hsplitA
    have hlen2 : (values (initLoop l h A.head? xs).2.1 (A.take xs.length)).length
        = xs.length := by
      rw [values_length _ _ _ _ hsplitA.1, List.length_take]
      omega
    have hvtake : values (initLoop l h A.head? xs).2.1 (A.take xs.length) = xs := by
      have hv2 : values (initLoop l h A.head? xs).2.1 (A.take xs.length)
            ++ values (initLoop l h A.head? xs).2.1 (A.drop xs.length)
          = xs ++ values h (A.drop xs.length) := by
        have := hvalsF
        simp only [List.nil_append, values_nil] at this
        rw [← values_append]
        exact this
      exact (List.append_inj hv2 (by rw [hlen2])).1
    refine ⟨A.take xs.length, hwE, ?_, ?_, ?_, ?_, ?_⟩
    · rw [hvE, hvtake]
    · rw [hcntE, hcnt2, hw.count_eq, List.length_drop]
      omega
    · have hmin : min A.length xs.length = xs.length := Nat.min_eq_right (le_of_lt hlt)
      rw [hmin, List.take_take]
      simp
    · exact hdeadE
    · have hframesF' : Frames h (initLoop l h A.head? xs).2.1 A := by simpa using hframesF
      refine Frames_trans h (initLoop l h A.head? xs).2.1 _ A
        (A.take xs.length ++ A.drop xs.length) hframesF' hframesE ?_
      intro b hb
      rw [List.take_append_drop] at hb
      exact Or.inl hb
  · -- literal at least as long: no surplus
    have hdrop : A.drop xs.length = [] := List.drop_eq_nil_of_le (by omega)
    rw [if_neg (by rw [hit, hdrop]; simp)]
    have htakeA : A.take xs.length = A := List.take_all_of_le (by omega)
    refine ⟨A ++ A2', ?_, ?_, ?_, ?_, ?_, ?_⟩
    · have := hwF
      rw [hdrop, htakeA] at this
      simpa using this
    · have := hvalsF
      rw [hdrop, htakeA] at this
      simp only [values_nil, List.nil_append, List.append_nil] at this
      exact this
    · rw [hcntF, hw.count_eq]
      omega
    · have hmin : min A.length xs.length = A.length := Nat.min_eq_left hge
      rw [hmin, List.take_left, List.take_length]
    · intro a ha
      rw [hdrop] at ha
      simp at ha
    · simpa using hframesF

/-!  ## Construction from a sequence, and iteration -/

theorem foldl_push_back_spec :
    ∀ (xs : List T) (s : St T) (A : List Nat), WF s.2 s.1 A →
      ∃ A2 : List Nat,
        WF (xs.foldl (fun t x => push_back t x) s).2
          (xs.foldl (fun t x => push_back t x) s).1 (A ++ A2) ∧
        values (xs.foldl (fun t x => push_back t x) s).2 (A ++ A2)
          = values s.2 A ++ xs ∧
        Frames s.2 (xs.foldl (fun t x => push_back t x) s).2 A ∧
        (xs.foldl (fun t x => push_back t x) s).1.numElements
          = s.1.numElements + xs.length := by
  intro xs
  induction xs with
  | nil =>
    intro s A hw
    exact ⟨[], by simpa using hw, by simp, Frames_refl _ _, by simp⟩
  | cons x xs' ih =>
    intro s A hw
    obtain ⟨l, h⟩ := s
    obtain ⟨hw2, hvals2, hfr2, hcnt2, hfresh2⟩ := push_back_spec h l A x hw
    have hstep : (x :: xs').foldl (fun t y => push_back t y) (l, h)
        = xs'.foldl (fun t y => push_back t y) (push_back (l, h) x) := rfl
    rw [hstep]
    obtain ⟨A2', hwF, hvalsF, hframesF, hcntF⟩ :=
      ih (push_back (l, h) x) (A ++ [h.fresh]) hw2
    refine ⟨h.fresh :: A2', ?_, ?_, ?_, ?_⟩
    · rw [show A ++ h.fresh :: A2' = (A ++ [h.fresh]) ++ A2' from by simp]
      exact hwF
    · rw [show A ++ h.fresh :: A2' = (A ++ [h.fresh]) ++ A2' from by simp, hvalsF, hvals2]
      simp
    · refine Frames_trans h (push_back (l, h) x).2 _ A (A ++ [h.fresh]) hfr2 hframesF ?_
      intro b hb
      rcases List.mem_append.mp hb with h1 | h2
      · exact Or.inl h1
      · simp at h2
        subst h2
        exact Or.inr (le_refl _)
    · rw [hcntF, hcnt2]
      simp
      omega

theorem ofListFrom_spec (h : Heap T) (xs : List T) :
    ∃ A : List Nat,
      WF (ofListFrom h xs).2 (ofListFrom h xs).1 A ∧
      values (ofListFrom h xs).2 A = xs ∧
      Frames h (ofListFrom h xs).2 [] ∧
      (ofListFrom h xs).1.numElements = xs.length := by
  have hw0 : WF ((list.dflt, h) : St T).2 ((list.dflt, h) : St T).1 [] := WF_nil h
  obtain ⟨A2, hwF, hvalsF, hframesF, hcntF⟩ := foldl_push_back_spec xs (list.dflt, h) [] hw0
  exact ⟨A2, by simpa using hwF, by simpa [values] using hvalsF, hframesF,
    by simpa [list.dflt] using hcntF⟩

theorem collectFwd_seg (h : Heap T) :
    ∀ (A : List Nat) (prev : Option Nat) (fuel : Nat),
      isSeg h prev A none = true → A.length < fuel →
      collectFwd h fuel A.head? = values h A := by
  intro A
  induction A with
  | nil =>
    intro prev fuel _ hfuel
    obtain ⟨f, rfl⟩ : ∃ f, fuel = f + 1 := by
      cases fuel with
      | zero => simp at hfuel
      | succ f => exact ⟨f, rfl⟩
    rfl
  | cons a rest ih =>
    intro prev fuel hseg hfuel
    obtain ⟨f, rfl⟩ : ∃ f, fuel = f + 1 := by
      cases fuel with
      | zero => simp at hfuel
      | succ f => exact ⟨f, rfl⟩
    rw [isSeg_cons_iff] at hseg
    obtain ⟨n, hn, _, hnext, hrest⟩ := hseg
    have hstar : star h (some a) = .ok n.data := by
      simp [star, hn]
    have hinc : incr h (some a) = rest.head? := by
      simp only [incr, hn]
      rw [hnext, nextOf_none_arg]
    show collectFwd h (f + 1) (some a) = _
    simp only [collectFwd, hstar, hinc]
    rw [ih (some a) f hrest (by simp at hfuel; omega), values_cons_live h a n rest hn]

theorem collectBwd_seg (h : Heap T) (A : List Nat) :
    ∀ (nxt : Option Nat) (fuel : Nat),
      isSeg h none A nxt = true → A.length < fuel →
      collectBwd h fuel A.getLast? = (values h A).reverse := by
  induction A using List.reverseRecOn with
  | nil =>
    intro nxt fuel _ hfuel
    obtain ⟨f, rfl⟩ : ∃ f, fuel = f + 1 := by
      cases fuel with
      | zero => simp at hfuel
      | succ f => exact ⟨f, rfl⟩
    rfl
  | append_singleton A' a ih =>
    intro nxt fuel hseg hfuel
    obtain ⟨f, rfl⟩ : ∃ f, fuel = f + 1 := by
      cases fuel with
      | zero => simp at hfuel
      | succ f => exact ⟨f, rfl⟩
    rw [isSeg_append, Bool.and_eq_true] at hseg
    obtain ⟨hsegA', hsegLast⟩ := hseg
    rw [isSeg_cons_iff] at hsegLast
    obtain ⟨n, hn, hprev, _, _⟩ := hsegLast
    rw [lastOf_none_arg] at hprev
    rw [nextOf_cons] at hsegA'
    have hstar : star h (some a) = .ok n.data := by
      simp [star, hn]
    have hdec : decr h (some a) = A'.getLast? := by
      simp only [decr, hn]
      rw [hprev]
    have hglast : (A' ++ [a]).getLast? = some a := List.getLast?_concat _
    rw [hglast]
    show collectBwd h (f + 1) (some a) = _
    simp only [collectBwd, hstar, hdec]
    rw [ih (some a) f hsegA' (by simp at hfuel; omega)]
    rw [values_append, values_cons_live h a n [] hn, values_nil]
    simp

theorem traverse_seg (h : Heap T) :
    ∀ (A : List Nat) (prev : Option Nat) (fuel : Nat),
      isSeg h prev A none = true → A.length < fuel →
      traverse h fuel A.head? = A := by
  intro A
  induction A with
  | nil =>
    intro prev fuel _ hfuel
    obtain ⟨f, rfl⟩ : ∃ f, fuel = f + 1 := by
      cases fuel with
      | zero => simp at hfuel
      | succ f => exact ⟨f, rfl⟩
    rfl
  | cons a rest ih =>
    intro prev fuel hseg hfuel
    obtain ⟨f, rfl⟩ : ∃ f, fuel = f + 1 := by
      cases fuel with
      | zero => simp at hfuel
      | succ f => exact ⟨f, rfl⟩
    rw [isSeg_cons_iff] at hseg
    obtain ⟨n, hn, _, hnext, hrest⟩ := hseg
    show traverse h (f + 1) (some a) = _
    simp only [traverse, hn]
    have hbind : ((some n).bind Node.pNext) = n.pNext := rfl
    rw [hbind, hnext, nextOf_none_arg, ih (some a) f hrest (by simp at hfuel; omega)]

/-!  ## Adjacency of chain nodes -/

/-- Two live nodes are mutually linked: the first's `pNext` names the second
and the second's `pPrev` names the first. -/
def linkedAt (h : Heap T) (a b : Nat) : Prop :=
  (∃ na, h.nodeAt a = some na ∧ na.pNext = some b) ∧
    (∃ nb, h.nodeAt b = some nb ∧ nb.pPrev = some a)

theorem isSeg_chain' (h : Heap T) :
    ∀ (A : List Nat) (prev nxt : Option Nat), isSeg h prev A nxt = true →
      List.Chain' (linkedAt h) A := by
  intro A
  induction A with
  | nil =>
    intro _ _ _
    exact List.chain'_nil
  | cons a rest ih =>
    intro prev nxt hseg
    rw [isSeg_cons_iff] at hseg
    obtain ⟨n, hn, _, hnext, hrest⟩ := hseg
    cases rest with
    | nil => exact List.chain'_singleton a
    | cons b rest' =>
      have hrest' := hrest
      rw [isSeg_cons_iff] at hrest'
      obtain ⟨nb, hnb, hnbprev, _, _⟩ := hrest'
      rw [List.chain'_cons]
      refine ⟨⟨⟨n, hn, by rwa [nextOf_cons] at hnext⟩, ⟨nb, hnb, hnbprev⟩⟩, ?_⟩
      exact ih (some a) nxt hrest

/-!  ## Single-list mutations -/

/-- The mutating operations of the public interface that act on one list. -/
inductive Mut (T : Type u) where
  | pushF (v : T)
  | pushB (v : T)
  | popF
  | popB
  | ins (it : Option Nat) (v : T)
  | ers (it : Option Nat)
  | clr

/-- Run a mutation on a list-heap state. -/
def applyMut : Mut T → St T → St T
  | .pushF v, s => push_front s v
  | .pushB v, s => push_back s v
  | .popF, s => pop_front s
  | .popB, s => pop_back s
  | .ins it v, s => (insert s it v).1
  | .ers it, s => (erase s it).1
  | .clr, s => clear s

/-- Validity of a mutation's iterator argument for a list with chain `A`:
insert and erase positions must be the end iterator or name a node of this
list; the other operations are unconditional. -/
def MutOk : Mut T → List Nat → Prop
  | .ins it _, A => it = none ∨ ∃ a, it = some a ∧ a ∈ A
  | .ers it, A => it = none ∨ ∃ a, it = some a ∧ a ∈ A
  | _, _ => True

theorem pop_front_spec (h : Heap T) (l : list T) (A : List Nat) (hw : WF h l A) :
    ∃ A' : List Nat,
      WF (pop_front (l, h)).2 (pop_front (l, h)).1 A' ∧
      Frames h (pop_front (l, h)).2 A ∧
      (∀ x ∈ A', x ∈ A) ∧
      values (pop_front (l, h)).2 A' = (values h A).drop 1 ∧
      (A = [] → pop_front (l, h) = (l, h)) := by
  cases A with
  | nil =>
    have hph : l.pHead = none := by rw [hw.head_eq]; rfl
    have hres : pop_front (l, h) = (l, h) := by
      simp [pop_front, hph, erase_none]
    rw [hres]
    exact ⟨[], hw, Frames_refl _ _, fun x hx => hx, by simp [values], fun _ => rfl⟩
  | cons a A' =>
    have hph : l.pHead = some a := by rw [hw.head_eq]; rfl
    have hres : pop_front (l, h) = (erase (l, h) (some a)).1 := by
      simp [pop_front, hph]
    obtain ⟨_, hwE, _, _, hvQE, hcntE, hframesE, _, _⟩ :=
      erase_spec h l [] A' a (by simpa using hw)
    rw [hres]
    refine ⟨A', by simpa using hwE, by simpa using hframesE, fun x hx => List.mem_cons_of_mem a hx,
      ?_, fun hc => by simp at hc⟩
    have hchain := hw.chain
    rw [isSeg_cons_iff] at hchain
    obtain ⟨n, hn, _, _, _⟩ := hchain
    rw [hvQE, values_cons_live h a n A' hn]
    simp

theorem pop_back_spec (h : Heap T) (l : list T) (A : List Nat) (hw : WF h l A) :
    ∃ A' : List Nat,
      WF (pop_back (l, h)).2 (pop_back (l, h)).1 A' ∧
      Frames h (pop_back (l, h)).2 A ∧
      (∀ x ∈ A', x ∈ A) ∧
      values (pop_back (l, h)).2 A' = (values h A).dropLast ∧
      (A = [] → pop_back (l, h) = (l, h)) := by
  cases hA : A.getLast? with
  | none =>
    rw [List.getLast?_eq_none_iff] at hA
    subst hA
    have hpt : l.pTail = none := by rw [hw.tail_eq]; rfl
    have hres : pop_back (l, h) = (l, h) := by
      simp [pop_back, hpt, erase_none]
    rw [hres]
    exact ⟨[], hw, Frames_refl _ _, fun x hx => hx, by simp [values], fun _ => rfl⟩
  | some t =>
    have hne : A ≠ [] := by
      intro hnil
      subst hnil
      simp at hA
    have hsplit : A.dropLast ++ [t] = A := by
      have h1 := List.dropLast_append_getLast hne
      have h2 : A.getLast hne = t := by
        rw [List.getLast?_eq_getLast A hne] at hA
        exact Option.some.inj hA
      rw [← h2]
      exact h1
    have hpt : l.pTail = some t := by rw [hw.tail_eq, hA]
    have hres : pop_back (l, h) = (erase (l, h) (some t)).1 := by
      simp [pop_back, hpt]
    have hw' : WF h l (A.dropLast ++ t :: []) := by
      rw [show A.dropLast ++ t :: [] = A.dropLast ++ [t] from rfl, hsplit]
      exact hw
    obtain ⟨_, hwE, _, hvPE, _, hcntE, hframesE, _, _⟩ :=
      erase_spec h l A.dropLast [] t hw'
    rw [hres]
    refine ⟨A.dropLast, by simpa using hwE, ?_, ?_, ?_, fun hc => absurd hc hne⟩
    · have h2 := hframesE
      rw [hsplit] at h2
      exact h2
    · intro x hx
      rw [← hsplit]
      exact List.mem_append_left _ hx
    · rw [hvPE]
      have hvsplit : values h A = values h A.dropLast ++ values h [t] := by
        conv =>
          lhs
          rw [← hsplit]
        exact values_append h _ _
      have htm : t ∈ A := hsplit ▸ List.mem_append_right _ (List.mem_cons_self t [])
      obtain ⟨n, hn⟩ := isSeg_live h A none none hw.chain t htm
      rw [hvsplit, values_cons_live h t n [] hn, values_nil, List.dropLast_concat]

/-- Every valid mutation keeps its list well-formed and touches only the
list's own nodes and freshly allocated ones. -/
theorem mut_frame (h : Heap T) (l : list T) (A : List Nat) (m : Mut T)
    (hw : WF h l A) (hok : MutOk m A) :
    ∃ A' : List Nat,
      WF (applyMut m (l, h)).2 (applyMut m (l, h)).1 A' ∧
      Frames h (applyMut m (l, h)).2 A ∧
      (∀ x ∈ A', x ∈ A ∨ h.fresh ≤ x) := by
  cases m with
  | pushF v =>
    obtain ⟨hw2, _, hfr, _, _⟩ := push_front_spec h l A v hw
    refine ⟨h.fresh :: A, hw2, hfr, ?_⟩
    intro x hx
    rcases List.mem_cons.mp hx with h1 | h2
    · subst h1
      exact Or.inr (le_refl _)
    · exact Or.inl h2
  | pushB v =>
    obtain ⟨hw2, _, hfr, _, _⟩ := push_back_spec h l A v hw
    refine ⟨A ++ [h.fresh], hw2, hfr, ?_⟩
    intro x hx
    rcases List.mem_append.mp hx with h1 | h2
    · exact Or.inl h1
    · simp at h2
      subst h2
      exact Or.inr (le_refl _)
  | popF =>
    obtain ⟨A', hw2, hfr, hsub, _, _⟩ := pop_front_spec h l A hw
    exact ⟨A', hw2, hfr, fun x hx => Or.inl (hsub x hx)⟩
  | popB =>
    obtain ⟨A', hw2, hfr, hsub, _, _⟩ := pop_back_spec h l A hw
    exact ⟨A', hw2, hfr, fun x hx => Or.inl (hsub x hx)⟩
  | ins it v =>
    cases hA : A with
    | nil =>
      subst hA
      obtain ⟨_, hw2, _, _, _, _, hfr⟩ := insert_empty_spec h l it v hw
      refine ⟨[h.fresh], hw2, hfr, ?_⟩
      intro x hx
      simp at hx
      subst hx
      exact Or.inr (le_refl _)
    | cons a0 A0 =>
      subst hA
      rcases hok with hnone | ⟨p, hp, hpmem⟩
      · subst hnone
        obtain ⟨heq, _⟩ := insert_end_spec h l (a0 :: A0) v hw (by simp)
        have happ : applyMut (Mut.ins none v) ((l, h) : St T) = (insert (l, h) none v).1 := rfl
        rw [happ, heq]
        obtain ⟨hw2, _, hfr, _, _⟩ := push_back_spec h l (a0 :: A0) v hw
        refine ⟨(a0 :: A0) ++ [h.fresh], hw2, hfr, ?_⟩
        intro x hx
        rcases List.mem_append.mp hx with h1 | h2
        · exact Or.inl h1
        · simp at h2
          subst h2
          exact Or.inr (le_refl _)
      · subst hp
        obtain ⟨P, Q, hPQ⟩ := List.append_of_mem hpmem
        rw [hPQ] at hw ⊢
        obtain ⟨_, hw2, _, _, hfr, _⟩ := insert_mid_spec h l P Q p v hw
        refine ⟨P ++ h.fresh :: p :: Q, hw2, hfr, ?_⟩
        intro x hx
        rcases List.mem_append.mp hx with h1 | h2
        · exact Or.inl (List.mem_append_left _ h1)
        · rcases List.mem_cons.mp h2 with h3 | h4
          · subst h3
            exact Or.inr (le_refl _)
          · exact Or.inl (List.mem_append_right _ h4)
  | ers it =>
    rcases hok with hnone | ⟨p, hp, hpmem⟩
    · subst hnone
      exact ⟨A, by simpa [applyMut, erase_none] using hw,
        by simpa [applyMut, erase_none] using Frames_refl h A, fun x hx => Or.inl hx⟩
    · subst hp
      obtain ⟨P, Q, hPQ⟩ := List.append_of_mem hpmem
      rw [hPQ] at hw ⊢
      obtain ⟨_, hw2, _, _, _, _, hfr, _, _⟩ := erase_spec h l P Q p hw
      refine ⟨P ++ Q, hw2, hfr, ?_⟩
      intro x hx
      rcases List.mem_append.mp hx with h1 | h2
      · exact Or.inl (List.mem_append_left _ h1)
      · exact Or.inl (List.mem_append_right _ (List.mem_cons_of_mem p h2))
  | clr =>
    obtain ⟨_, _, _, _, hw2, hfr⟩ := clear_spec h l A hw
    exact ⟨[], hw2, hfr, fun x hx => by simp at hx⟩

/-!  ## Reachable states -/

/-- A state is good when some address trace witnesses the representation
invariant. -/
def Good (s : St T) : Prop := ∃ A, WF s.2 s.1 A

/-- The iterator argument handed to `insert`/`erase` is the end iterator or
names a node on the list's own chain (walked from `pHead` by `pNext`). -/
def itInList (s : St T) (it : Option Nat) : Prop :=
  it = none ∨ ∃ a, it = some a ∧ a ∈ traverse s.2 (s.1.numElements + 1) s.1.pHead

/-- States reachable from construction by any sequence of the public
operations of `custom::list`. -/
inductive Reach {T : Type u} : St T → Prop where
  | construct (xs : List T) : Reach (ofList xs)
  | pushFront (s : St T) (v : T) : Reach s → Reach (push_front s v)
  | pushBack (s : St T) (v : T) : Reach s → Reach (push_back s v)
  | popFront (s : St T) : Reach s → Reach (pop_front s)
  | popBack (s : St T) : Reach s → Reach (pop_back s)
  | insertAt (s : St T) (it : Option Nat) (v : T) :
      Reach s → itInList s it → Reach (insert s it v).1
  | eraseAt (s : St T) (it : Option Nat) :
      Reach s → itInList s it → Reach (erase s it).1
  | clearAll (s : St T) : Reach s → Reach (clear s)
  | assignLit (s : St T) (xs : List T) : Reach s → Reach (assignInit s.1 s.2 xs)
  | moveDst (s : St T) : Reach s → Reach ((moveCtor s.1).1, s.2)
  | moveSrc (s : St T) : Reach s → Reach ((moveCtor s.1).2, s.2)
  | copyConstruct (s : St T) : Reach s → Reach (assignCopy list.dflt s.1 s.2)

theorem itInList_mem (s : St T) (it : Option Nat) (A : List Nat)
    (hw : WF s.2 s.1 A) (hv : itInList s it) :
    it = none ∨ ∃ a, it = some a ∧ a ∈ A := by
  rcases hv with hnone | ⟨a, hit, hmem⟩
  · exact Or.inl hnone
  · refine Or.inr ⟨a, hit, ?_⟩
    have htr : traverse s.2 (s.1.numElements + 1) s.1.pHead = A := by
      rw [hw.head_eq, hw.count_eq]
      exact traverse_seg s.2 A none (A.length + 1) hw.chain (by omega)
    rwa [htr] at hmem

theorem reach_good {s : St T} (hr : Reach s) : Good s := by
  induction hr with
  | construct xs =>
    obtain ⟨A, hw, _, _, _⟩ := ofListFrom_spec emptyHeap xs
    exact ⟨A, hw⟩
  | pushFront s v _ ih =>
    obtain ⟨l, h⟩ := s
    obtain ⟨A, hw⟩ := ih
    obtain ⟨A', hw2, _, _⟩ := mut_frame h l A (Mut.pushF v) hw trivial
    exact ⟨A', hw2⟩
  | pushBack s v _ ih =>
    obtain ⟨l, h⟩ := s
    obtain ⟨A, hw⟩ := ih
    obtain ⟨A', hw2, _, _⟩ := mut_frame h l A (Mut.pushB v) hw trivial
    exact ⟨A', hw2⟩
  | popFront s _ ih =>
    obtain ⟨l, h⟩ := s
    obtain ⟨A, hw⟩ := ih
    obtain ⟨A', hw2, _, _⟩ := mut_frame h l A Mut.popF hw trivial
    exact ⟨A', hw2⟩
  | popBack s _ ih =>
    obtain ⟨l, h⟩ := s
    obtain ⟨A, hw⟩ := ih
    obtain ⟨A', hw2, _, _⟩ := mut_frame h l A Mut.popB hw trivial
    exact ⟨A', hw2⟩
  | insertAt s it v _ hok ih =>
    obtain ⟨A, hw⟩ := ih
    have hok2 := itInList_mem s it A hw hok
    obtain ⟨l, h⟩ := s
    obtain ⟨A', hw2, _, _⟩ := mut_frame h l A (Mut.ins it v) hw hok2
    exact ⟨A', hw2⟩
  | eraseAt s it _ hok ih =>
    obtain ⟨A, hw⟩ := ih
    have hok2 := itInList_mem s it A hw hok
    obtain ⟨l, h⟩ := s
    obtain ⟨A', hw2, _, _⟩ := mut_frame h l A (Mut.ers it) hw hok2
    exact ⟨A', hw2⟩
  | clearAll s _ ih =>
    obtain ⟨l, h⟩ := s
    obtain ⟨A, hw⟩ := ih
    obtain ⟨A', hw2, _, _⟩ := mut_frame h l A Mut.clr hw trivial
    exact ⟨A', hw2⟩
  | assignLit s xs _ ih =>
    obtain ⟨l, h⟩ := s
    obtain ⟨A, hw⟩ := ih
    obtain ⟨A2, hw2, _, _, _, _, _⟩ := assignInit_spec h l A xs hw
    exact ⟨A2, hw2⟩
  | moveDst s _ ih =>
    obtain ⟨l, h⟩ := s
    obtain ⟨A, hw⟩ := ih
    exact ⟨A, ⟨hw.chain, hw.head_eq, hw.tail_eq, hw.count_eq, hw.nodup, hw.bounded⟩⟩
  | moveSrc s _ ih =>
    obtain ⟨l, h⟩ := s
    exact ⟨[], isSeg_nil _ _ _, rfl, rfl, rfl, List.nodup_nil, fun a ha => by simp at ha⟩
  | copyConstruct s _ ih =>
    obtain ⟨l, h⟩ := s
    obtain ⟨B, hwB⟩ := ih
    obtain ⟨A2, hw2, _, _, _, _, _, _⟩ :=
      assignCopy_spec h list.dflt l [] B (WF_nil h) hwB (fun x hx => by simp at hx)
    exact ⟨A2, hw2⟩

/-- The structural facts that hold of every well-formed list. -/
theorem WF_invariants (h : Heap T) (l : list T) (A : List Nat) (hw : WF h l A) :
    l.size = A.length ∧
    traverse h (l.size + 1) l.pHead = A ∧
    l.pTail = A.getLast? ∧
    (l.empty = true ↔ l.size = 0) ∧
    (l.numElements = 0 ↔ l.pHead = none) ∧
    (l.pHead = none ↔ l.pTail = none) ∧
    List.Chain' (linkedAt h) A := by
  have hsize : l.size = A.length := hw.count_eq
  refine ⟨hsize, ?_, hw.tail_eq, ?_, ?_, ?_, isSeg_chain' h A none none hw.chain⟩
  · rw [hw.head_eq, hsize]
    exact traverse_seg h A none (A.length + 1) hw.chain (by omega)
  · simp [list.empty]
  · rw [hw.count_eq, hw.head_eq]
    constructor
    · intro hlen
      rw [List.length_eq_zero] at hlen
      subst hlen
      rfl
    · intro hhd
      rw [List.head?_eq_none_iff] at hhd
      subst hhd
      rfl
  · rw [hw.head_eq, hw.tail_eq]
    rw [List.head?_eq_none_iff, List.getLast?_eq_none_iff]

/-!  ## Claim theorems -/

/-- C8: `front()` and `back()` on a non-empty list return the element stored
at the head and tail node respectively (a mutable reference in C++, modelled
as the stored value); on an empty list each fails by raising the
empty-container error rather than returning. -/
theorem C8_front_back (h : Heap T) (l : list T) (A : List Nat) (hw : WF h l A) :
    (l.empty = true →
      front (l, h) = .error "ERROR: unable to access data from an empty list" ∧
      back (l, h) = .error "ERROR: unable to access data from an empty list") ∧
    (l.empty = false →
      ∃ v w, front (l, h) = .ok v ∧ (values h A).head? = some v ∧
        back (l, h) = .ok w ∧ (values h A).getLast? = some w) := by
  constructor
  · intro hempty
    have hA : A = [] := by
      have := hw.count_eq
      simp [list.empty, list.size] at hempty
      rw [hempty] at this
      exact (List.length_eq_zero.mp this.symm)
    subst hA
    have hph : l.pHead = none := by rw [hw.head_eq]; rfl
    have hpt : l.pTail = none := by rw [hw.tail_eq]; rfl
    constructor
    · simp [front, hph]
    · simp [back, hpt]
  · intro hempty
    have hA : A ≠ [] := by
      intro hnil
      subst hnil
      have := hw.count_eq
      simp [list.empty, list.size, this] at hempty
    obtain ⟨a, A', rfl⟩ : ∃ a A', A = a :: A' := by
      cases A with
      | nil => exact absurd rfl hA
      | cons a A' => exact ⟨a, A', rfl⟩
    have hph : l.pHead = some a := by rw [hw.head_eq]; rfl
    obtain ⟨n, hn⟩ := isSeg_live h _ none none hw.chain a (List.mem_cons_self a A')
    obtain ⟨t, hpt⟩ : ∃ t, l.pTail = some t := by
      rw [hw.tail_eq]
      cases hg : (a :: A').getLast? with
      | none => rw [List.getLast?_eq_none_iff] at hg; simp at hg
      | some t => exact ⟨t, rfl⟩
    have hglast : (a :: A').getLast? = some t := by rw [← hw.tail_eq, hpt]
    have htm : t ∈ a :: A' := by
      have hopt : t ∈ (a :: A').getLast? := by rw [hglast]; rfl
      obtain ⟨hne, heq⟩ := List.mem_getLast?_eq_getLast hopt
      rw [heq]
      exact List.getLast_mem hne
    obtain ⟨m, hm⟩ := isSeg_live h _ none none hw.chain t htm
    refine ⟨n.data, m.data, ?_, ?_, ?_, ?_⟩
    · simp [front, hph, hn]
    · rw [values_cons_live h a n A' hn]
      rfl
    · simp [back, hpt, hm]
    · have hsplit : (a :: A').dropLast ++ [t] = a :: A' := by
        have h1 := List.dropLast_append_getLast (l := a :: A') (by simp)
        have h2 : (a :: A').getLast (by simp) = t := by
          rw [List.getLast?_eq_getLast _ (by simp)] at hglast
          exact Option.some.inj hglast
        rw [← h2]
        exact h1
      have hv : values h (a :: A')
          = values h (a :: A').dropLast ++ values h [t] := by
        conv =>
          lhs
          rw [← hsplit]
        exact values_append h _ _
      rw [hv, values_cons_live h t m [] hm, values_nil, List.getLast?_concat]

/-- C9: incrementing or decrementing a null (end) iterator, in prefix or
postfix form, leaves the position null without failing; dereferencing a null
iterator fails with the empty-access error; dereferencing an iterator on a
live node returns that node's element. -/
theorem C9_null_iterators :
    (∀ h : Heap T,
      incr h none = none ∧ decr h none = none ∧
      incrPost h none = (none, none) ∧ decrPost h none = (none, none) ∧
      star h none = .error "ERROR: unable to access data from an empty list") ∧
    (∀ (h : Heap T) (a : Nat) (n : Node T), h.nodeAt a = some n →
      star h (some a) = .ok n.data) := by
  refine ⟨fun h => ⟨rfl, rfl, rfl, rfl, rfl⟩, ?_⟩
  intro h a n hn
  simp [star, hn]

/-- C9 witness: the iterator facts instantiated on the concrete one-element
list `[3]`, whose sole node lives at address 0. -/
theorem C9_null_iterators_witness :
    star (ofList ([3] : List Int)).2 (some 0) = .ok (3 : Int) :=
  C9_null_iterators.2 (ofList ([3] : List Int)).2 0 ⟨3, none, none⟩ (by decide)

/-- C10: the postfix increment and decrement operators return the iterator
value after the move — the same value the prefix forms produce — not the
position held before the operation, as shown on the concrete list `[1, 2]`
where postfix increment at `begin()` does not return `begin()`. -/
theorem C10_post_forms :
    (∀ (h : Heap T) (p : Option Nat),
      incrPost h p = (incr h p, incr h p) ∧ decrPost h p = (decr h p, decr h p)) ∧
    ((incrPost (ofList ([1, 2] : List Int)).2 (ofList ([1, 2] : List Int)).1.begin).2
        = incr (ofList ([1, 2] : List Int)).2 (ofList ([1, 2] : List Int)).1.begin ∧
      (incrPost (ofList ([1, 2] : List Int)).2 (ofList ([1, 2] : List Int)).1.begin).2
        ≠ (ofList ([1, 2] : List Int)).1.begin) := by
  refine ⟨fun h p => ⟨?_, ?_⟩, by decide, by decide⟩
  · cases p <;> rfl
  · cases p <;> rfl

/-- C2: `erase` on a null iterator returns the end iterator and leaves the
list unchanged; `erase` on a node of the list unlinks it (head and tail both
become null when the sole element is erased), decrements the count by one,
and returns an iterator to the following node or the end iterator when the
erased node was the tail; `pop_front`/`pop_back` are exactly `erase` at
head/tail and hence no-ops on an empty list. -/
theorem C2_erase_pop :
    (∀ s : St T, erase s none = (s, none)) ∧
    (∀ (h : Heap T) (l : list T) (P Q : List Nat) (a : Nat), WF h l (P ++ a :: Q) →
      (erase (l, h) (some a)).2 = Q.head? ∧
      WF (erase (l, h) (some a)).1.2 (erase (l, h) (some a)).1.1 (P ++ Q) ∧
      values (erase (l, h) (some a)).1.2 (P ++ Q) = values h P ++ values h Q ∧
      (erase (l, h) (some a)).1.1.numElements = l.numElements - 1 ∧
      (erase (l, h) (some a)).1.2.nodeAt a = none ∧
      (P = [] → Q = [] → (erase (l, h) (some a)).1.1.pHead = none ∧
        (erase (l, h) (some a)).1.1.pTail = none) ∧
      (Q = [] → (erase (l, h) (some a)).2 = listEnd)) ∧
    (∀ s : St T, pop_front s = (erase s s.1.pHead).1 ∧ pop_back s = (erase s s.1.pTail).1) ∧
    (∀ (h : Heap T) (l : list T), WF h l [] →
      pop_front (l, h) = (l, h) ∧ pop_back (l, h) = (l, h)) := by
  refine ⟨fun s => rfl, ?_, fun s => ⟨rfl, rfl⟩, ?_⟩
  · intro h l P Q a hw
    obtain ⟨hret, hwE, hvals, _, _, hcnt, _, hdead, _⟩ := erase_spec h l P Q a hw
    refine ⟨hret, hwE, hvals, hcnt, hdead, ?_, ?_⟩
    · intro hP hQ
      subst hP
      subst hQ
      exact ⟨by rw [hwE.head_eq]; rfl, by rw [hwE.tail_eq]; rfl⟩
    · intro hQ
      subst hQ
      rw [hret]
      rfl
  · intro h l hw
    have hph : l.pHead = none := by rw [hw.head_eq]; rfl
    have hpt : l.pTail = none := by rw [hw.tail_eq]; rfl
    constructor
    · show (erase (l, h) l.pHead).1 = (l, h)
      rw [hph, erase_none]
    · show (erase (l, h) l.pTail).1 = (l, h)
      rw [hpt, erase_none]

/-- C2 witness: erasing the sole element of the concrete list `[5]` yields the
empty list with null head and tail and the end iterator as result. -/
theorem C2_erase_pop_witness :
    (erase ((ofList ([5] : List Int)).1, (ofList ([5] : List Int)).2) (some 0)).2
        = ([] : List Nat).head? ∧
    (erase ((ofList ([5] : List Int)).1, (ofList ([5] : List Int)).2) (some 0)).1.1.pHead
        = none ∧
    (erase ((ofList ([5] : List Int)).1, (ofList ([5] : List Int)).2) (some 0)).1.1.pTail
        = none := by
  have hw : WF (ofList ([5] : List Int)).2 (ofList ([5] : List Int)).1 ([] ++ 0 :: []) :=
    ⟨by decide, by decide, by decide, by decide, by decide, by decide⟩
  have hspec := C2_erase_pop.2.1 (ofList ([5] : List Int)).2 (ofList ([5] : List Int)).1
    [] [] 0 hw
  exact ⟨hspec.1, (hspec.2.2.2.2.2.1 rfl rfl).1, (hspec.2.2.2.2.2.1 rfl rfl).2⟩

/-- C8 witness: `front`/`back` on the concrete two-element list `[7, 8]`
return 7 and 8, and on the empty list both fail. -/
theorem C8_front_back_witness :
    (∃ v w, front ((ofList ([7, 8] : List Int)).1, (ofList ([7, 8] : List Int)).2) = .ok v ∧
      (values (ofList ([7, 8] : List Int)).2 [0, 1]).head? = some v ∧
      back ((ofList ([7, 8] : List Int)).1, (ofList ([7, 8] : List Int)).2) = .ok w ∧
      (values (ofList ([7, 8] : List Int)).2 [0, 1]).getLast? = some w) ∧
    front ((list.dflt : list Int), emptyHeap)
      = .error "ERROR: unable to access data from an empty list" := by
  have hw : WF (ofList ([7, 8] : List Int)).2 (ofList ([7, 8] : List Int)).1 [0, 1] :=
    ⟨by decide, by decide, by decide, by decide, by decide, by decide⟩
  refine ⟨(C8_front_back (ofList ([7, 8] : List Int)).2 (ofList ([7, 8] : List Int)).1
    [0, 1] hw).2 (by decide), ?_⟩
  exact ((C8_front_back emptyHeap (list.dflt : list Int) [] (WF_nil emptyHeap)).1
    (by decide)).1

/-- C4: `insert(position, value)` places a new node immediately before the
node named by `position`, increments the count, and returns an iterator to
the new node: on an empty list the node becomes the sole head and tail; at
the end iterator it is appended as the new tail, identically to `push_back`;
otherwise it is spliced between `position`'s predecessor and `position`,
with the head updated when `position` had no predecessor. -/
theorem C4_insert :
    (∀ (h : Heap T) (l : list T) (it : Option Nat) (v : T), WF h l [] →
      (insert (l, h) it v).2 = some h.fresh ∧
      WF (insert (l, h) it v).1.2 (insert (l, h) it v).1.1 [h.fresh] ∧
      values (insert (l, h) it v).1.2 [h.fresh] = [v] ∧
      (insert (l, h) it v).1.1.numElements = 1 ∧
      (insert (l, h) it v).1.1.pHead = some h.fresh ∧
      (insert (l, h) it v).1.1.pTail = some h.fresh) ∧
    (∀ (h : Heap T) (l : list T) (A : List Nat) (v : T), WF h l A → A ≠ [] →
      (insert (l, h) none v).1 = push_back (l, h) v ∧
      (insert (l, h) none v).2 = some h.fresh ∧
      WF (insert (l, h) none v).1.2 (insert (l, h) none v).1.1 (A ++ [h.fresh]) ∧
      values (insert (l, h) none v).1.2 (A ++ [h.fresh]) = values h A ++ [v] ∧
      (insert (l, h) none v).1.1.numElements = l.numElements + 1) ∧
    (∀ (h : Heap T) (l : list T) (P Q : List Nat) (p : Nat) (v : T),
      WF h l (P ++ p :: Q) →
      (insert (l, h) (some p) v).2 = some h.fresh ∧
      WF (insert (l, h) (some p) v).1.2 (insert (l, h) (some p) v).1.1
        (P ++ h.fresh :: p :: Q) ∧
      values (insert (l, h) (some p) v).1.2 (P ++ h.fresh :: p :: Q)
        = values h P ++ v :: values h (p :: Q) ∧
      (insert (l, h) (some p) v).1.1.numElements = l.numElements + 1 ∧
      (P = [] → (insert (l, h) (some p) v).1.1.pHead = some h.fresh)) := by
  refine ⟨?_, ?_, ?_⟩
  · intro h l it v hw
    obtain ⟨hret, hw2, hvals, hcnt, hhd, htl, _⟩ := insert_empty_spec h l it v hw
    exact ⟨hret, hw2, hvals, hcnt, hhd, htl⟩
  · intro h l A v hw hne
    obtain ⟨heq, hret⟩ := insert_end_spec h l A v hw hne
    obtain ⟨hw2, hvals, _, hcnt, _⟩ := push_back_spec h l A v hw
    rw [heq]
    exact ⟨rfl, hret, hw2, hvals, hcnt⟩
  · intro h l P Q p v hw
    obtain ⟨hret, hw2, hvals, hcnt, _, _⟩ := insert_mid_spec h l P Q p v hw
    refine ⟨hret, hw2, hvals, hcnt, ?_⟩
    intro hP
    subst hP
    rw [hw2.head_eq]
    rfl

/-- C4 witness: inserting 99 before the middle node of the concrete list
`[1, 2, 3]` yields `[1, 99, 2, 3]` with the new node at the fresh address. -/
theorem C4_insert_witness :
    (insert ((ofList ([1, 2, 3] : List Int)).1, (ofList ([1, 2, 3] : List Int)).2)
        (some 1) (99 : Int)).2 = some 3 ∧
    values (insert ((ofList ([1, 2, 3] : List Int)).1,
        (ofList ([1, 2, 3] : List Int)).2) (some 1) (99 : Int)).1.2 ([0] ++ 3 :: 1 :: [2])
      = values (ofList ([1, 2, 3] : List Int)).2 [0]
        ++ 99 :: values (ofList ([1, 2, 3] : List Int)).2 [1, 2] := by
  have hw : WF (ofList ([1, 2, 3] : List Int)).2 (ofList ([1, 2, 3] : List Int)).1
      ([0] ++ 1 :: [2]) :=
    ⟨by decide, by decide, by decide, by decide, by decide, by decide⟩
  have hspec := C4_insert.2.2 (ofList ([1, 2, 3] : List Int)).2
    (ofList ([1, 2, 3] : List Int)).1 [0] [2] 1 (99 : Int) hw
  exact ⟨hspec.1, hspec.2.2.1⟩

/-- C7: constructing a list from any finite sequence S (the initializer-list
and iterator-pair constructors both `push_back` each source element in
order) and iterating from `begin()` by increment yields exactly S, while
iterating from `rbegin()` by decrement yields S reversed. -/
theorem C7_round_trip (xs : List T) :
    collectFwd (ofList xs).2 ((ofList xs).1.size + 1) (ofList xs).1.begin = xs ∧
    collectBwd (ofList xs).2 ((ofList xs).1.size + 1) (ofList xs).1.rbegin
      = xs.reverse := by
  obtain ⟨A, hw, hvals, _, hcnt⟩ := ofListFrom_spec emptyHeap xs
  have hsize : (ofList xs).1.size = A.length := hw.count_eq
  have hlen : A.length = xs.length := by
    rw [← hsize]
    exact hcnt
  constructor
  · rw [show (ofList xs).1.begin = A.head? from hw.head_eq, hsize]
    rw [collectFwd_seg (ofList xs).2 A none (A.length + 1) hw.chain (by omega)]
    exact hvals
  · rw [show (ofList xs).1.rbegin = A.getLast? from hw.tail_eq, hsize]
    rw [collectBwd_seg (ofList xs).2 A none (A.length + 1) hw.chain (by omega)]
    rw [show values (ofList xs).2 A = xs from hvals]

/-- C1 counterexample: move-assigning the one-element list `[1]` into an
empty destination transfers the value, but the source list object keeps its
node and its count — `size()` is still 1 and `empty()` is false, and the
source's node at address 0 is still allocated and still reachable from the
source's head — refuting the claim that move-assignment leaves the source
empty with null head and tail. -/
theorem C1_counterexample :
    values (assignMove list.dflt (ofList ([1] : List Int)).1
        (ofList ([1] : List Int)).2).2 [1] = [1] ∧
    (assignMove list.dflt (ofList ([1] : List Int)).1
        (ofList ([1] : List Int)).2).1.numElements = 1 ∧
    (ofList ([1] : List Int)).1.size = 1 ∧
    (ofList ([1] : List Int)).1.empty = false ∧
    (ofList ([1] : List Int)).1.pHead = some 0 ∧
    (assignMove list.dflt (ofList ([1] : List Int)).1
          (ofList ([1] : List Int)).2).2.nodeAt 0
      = some ⟨1, none, none⟩ ∧
    collectFwd (assignMove list.dflt (ofList ([1] : List Int)).1
        (ofList ([1] : List Int)).2).2 2 (ofList ([1] : List Int)).1.pHead = [1] := by
  decide

/-- C1 (amended): after move-construction the destination holds exactly the
source's prior elements in order and the source is left empty (head and tail
null, `size() == 0`, `empty() == true`); after move-assignment the
destination holds exactly the source's prior elements in order, but the
source list object's head, tail and count are untouched and its node chain
remains allocated and well-formed (its elements are merely in a moved-from
state), so the source is not emptied. -/
theorem C1_move :
    (∀ (h : Heap T) (l : list T) (A : List Nat), WF h l A →
      (moveCtor l).1 = ⟨l.numElements, l.pHead, l.pTail⟩ ∧
      (moveCtor l).2 = ⟨0, none, none⟩ ∧
      WF h (moveCtor l).1 A ∧
      (moveCtor l).2.size = 0 ∧
      (moveCtor l).2.empty = true ∧
      (moveCtor l).2.pHead = none ∧
      (moveCtor l).2.pTail = none ∧
      WF h (moveCtor l).2 []) ∧
    (∀ (h : Heap T) (lA lB : list T) (A B : List Nat),
      WF h lA A → WF h lB B → (∀ x ∈ A, x ∉ B) →
      ∃ A2 : List Nat,
        WF (assignMove lA lB h).2 (assignMove lA lB h).1 A2 ∧
        values (assignMove lA lB h).2 A2 = values h B ∧
        (assignMove lA lB h).1.numElements = lB.numElements ∧
        WF (assignMove lA lB h).2 lB B ∧
        values (assignMove lA lB h).2 B = values h B ∧
        lB.size = B.length) := by
  constructor
  · intro h l A hw
    refine ⟨rfl, rfl, ⟨hw.chain, hw.head_eq, hw.tail_eq, hw.count_eq, hw.nodup, hw.bounded⟩,
      rfl, rfl, rfl, rfl, ?_⟩
    exact ⟨isSeg_nil _ _ _, rfl, rfl, rfl, List.nodup_nil, fun a ha => by simp at ha⟩
  · intro h lA lB A B hwA hwB hdisj
    obtain ⟨A2, hw2, hvals, hwB2, hvB, _, hcnt, _⟩ := assignCopy_spec h lA lB A B hwA hwB hdisj
    exact ⟨A2, hw2, hvals, hcnt, hwB2, hvB, hwB.count_eq⟩

/-- C1 witness: the amended move facts instantiated on the concrete lists —
moving from the one-element list `[1]` into an empty destination. -/
theorem C1_move_witness :
    WF (ofList ([1] : List Int)).2 (moveCtor (ofList ([1] : List Int)).1).1 [0] ∧
    (moveCtor (ofList ([1] : List Int)).1).2.size = 0 ∧
    (∃ A2 : List Nat,
      WF (assignMove list.dflt (ofList ([1] : List Int)).1
          (ofList ([1] : List Int)).2).2
        (assignMove list.dflt (ofList ([1] : List Int)).1
          (ofList ([1] : List Int)).2).1 A2 ∧
      values (assignMove list.dflt (ofList ([1] : List Int)).1
          (ofList ([1] : List Int)).2).2 A2
        = values (ofList ([1] : List Int)).2 [0] ∧
      (assignMove list.dflt (ofList ([1] : List Int)).1
          (ofList ([1] : List Int)).2).1.numElements
        = (ofList ([1] : List Int)).1.numElements ∧
      WF (assignMove list.dflt (ofList ([1] : List Int)).1
          (ofList ([1] : List Int)).2).2 (ofList ([1] : List Int)).1 [0] ∧
      values (assignMove list.dflt (ofList ([1] : List Int)).1
          (ofList ([1] : List Int)).2).2 [0]
        = values (ofList ([1] : List Int)).2 [0] ∧
      (ofList ([1] : List Int)).1.size = [0].length) := by
  have hwB : WF (ofList ([1] : List Int)).2 (ofList ([1] : List Int)).1 [0] :=
    ⟨by decide, by decide, by decide, by decide, by decide, by decide⟩
  have hwA : WF (ofList ([1] : List Int)).2 (list.dflt : list Int) [] :=
    ⟨by decide, by decide, by decide, by decide, by decide, by decide⟩
  refine ⟨((C1_move.1 (ofList ([1] : List Int)).2 (ofList ([1] : List Int)).1 [0]
    hwB).2.2.1), rfl, ?_⟩
  exact C1_move.2 (ofList ([1] : List Int)).2 list.dflt (ofList ([1] : List Int)).1 [] [0]
    hwA hwB (fun x hx => by simp at hx)

/-- C3: after copy-assignment the destination's length and per-position
values exactly match the source, the source list and its values are
unchanged, and the two lists share no nodes — consequently every subsequent
valid mutation of either list leaves the other's contents unaffected. -/
theorem C3_copy_assign (h : Heap T) (lA lB : list T) (A B : List Nat)
    (hwA : WF h lA A) (hwB : WF h lB B) (hdisj : ∀ x ∈ A, x ∉ B) :
    ∃ A2 : List Nat,
      WF (assignCopy lA lB h).2 (assignCopy lA lB h).1 A2 ∧
      values (assignCopy lA lB h).2 A2 = values h B ∧
      (assignCopy lA lB h).1.numElements = lB.numElements ∧
      WF (assignCopy lA lB h).2 lB B ∧
      values (assignCopy lA lB h).2 B = values h B ∧
      (∀ x ∈ A2, x ∉ B) ∧
      (∀ m : Mut T, MutOk m A2 →
        values (applyMut m ((assignCopy lA lB h).1, (assignCopy lA lB h).2)).2 B
          = values h B) ∧
      (∀ m : Mut T, MutOk m B →
        values (applyMut m (lB, (assignCopy lA lB h).2)).2 A2
          = values (assignCopy lA lB h).2 A2) := by
  obtain ⟨A2, hw2, hvals, hwB2, hvB, hdisj2, hcnt, _⟩ :=
    assignCopy_spec h lA lB A B hwA hwB hdisj
  refine ⟨A2, hw2, hvals, hcnt, hwB2, hvB, hdisj2, ?_, ?_⟩
  · intro m hok
    obtain ⟨A', _, hfrm, _⟩ :=
      mut_frame (assignCopy lA lB h).2 (assignCopy lA lB h).1 A2 m hw2 hok
    have := (WF_of_frames (assignCopy lA lB h).2 _ lB B A2 hwB2 hfrm
      (fun b hb hbA2 => hdisj2 b hbA2 hb)).2
    rw [this, hvB]
  · intro m hok
    obtain ⟨B', _, hfrm, _⟩ :=
      mut_frame (assignCopy lA lB h).2 lB B m hwB2 hok
    exact (WF_of_frames (assignCopy lA lB h).2 _ (assignCopy lA lB h).1 A2 B hw2 hfrm
      (fun b hb hbB => hdisj2 b hb hbB)).2

/-- C3 witness: copy-assigning the concrete list `[1, 2]` onto `[9]` in a
shared heap — the destination becomes `[1, 2]` at fresh nodes, the source is
unchanged, and pushing onto the destination leaves the source's values
intact. -/
theorem C3_copy_assign_witness :
    ∃ A2 : List Nat,
      WF (assignCopy (ofListFrom (ofList ([1, 2] : List Int)).2 [(9 : Int)]).1
          (ofList ([1, 2] : List Int)).1
          (ofListFrom (ofList ([1, 2] : List Int)).2 [(9 : Int)]).2).2
        (assignCopy (ofListFrom (ofList ([1, 2] : List Int)).2 [(9 : Int)]).1
          (ofList ([1, 2] : List Int)).1
          (ofListFrom (ofList ([1, 2] : List Int)).2 [(9 : Int)]).2).1 A2 ∧
      values (assignCopy (ofListFrom (ofList ([1, 2] : List Int)).2 [(9 : Int)]).1
          (ofList ([1, 2] : List Int)).1
          (ofListFrom (ofList ([1, 2] : List Int)).2 [(9 : Int)]).2).2 A2
        = values (ofListFrom (ofList ([1, 2] : List Int)).2 [(9 : Int)]).2 [0, 1] := by
  have hwA : WF (ofListFrom (ofList ([1, 2] : List Int)).2 [(9 : Int)]).2
      (ofListFrom (ofList ([1, 2] : List Int)).2 [(9 : Int)]).1 [2] :=
    ⟨by decide, by decide, by decide, by decide, by decide, by decide⟩
  have hwB : WF (ofListFrom (ofList ([1, 2] : List Int)).2 [(9 : Int)]).2
      (ofList ([1, 2] : List Int)).1 [0, 1] :=
    ⟨by decide, by decide, by decide, by decide, by decide, by decide⟩
  obtain ⟨A2, hw2, hvals, _, _, _, _, _⟩ :=
    C3_copy_assign (ofListFrom (ofList ([1, 2] : List Int)).2 [(9 : Int)]).2
      (ofListFrom (ofList ([1, 2] : List Int)).2 [(9 : Int)]).1
      (ofList ([1, 2] : List Int)).1 [2] [0, 1] hwA hwB (by decide)
  exact ⟨A2, hw2, hvals⟩

/-- C5: every list reachable by any sequence of construction, push/pop,
insert, erase, clear, assignment and swap operations is well-formed; on such
a list `size()` equals the number of nodes reachable from the head via
`next` links terminating at the tail, `empty() == (size() == 0)`,
`count == 0` iff the head is null iff the tail is null, and adjacent nodes
are mutually linked (`A.next == B` iff `B.prev == A`, both directions
holding for every adjacent pair). Assignment between two disjoint
well-formed lists and `swap` also preserve well-formedness of both lists. -/
theorem C5_invariants :
    (∀ s : St T, Reach s → Good s) ∧
    (∀ (s : St T) (A : List Nat), WF s.2 s.1 A →
      s.1.size = A.length ∧
      traverse s.2 (s.1.size + 1) s.1.pHead = A ∧
      s.1.pTail = A.getLast? ∧
      (s.1.empty = true ↔ s.1.size = 0) ∧
      (s.1.numElements = 0 ↔ s.1.pHead = none) ∧
      (s.1.pHead = none ↔ s.1.pTail = none) ∧
      List.Chain' (linkedAt s.2) A) ∧
    (∀ (h : Heap T) (lA lB : list T) (A B : List Nat),
      WF h lA A → WF h lB B → (∀ x ∈ A, x ∉ B) →
      Good ((assignCopy lA lB h).1, (assignCopy lA lB h).2) ∧
      Good (lB, (assignCopy lA lB h).2) ∧
      Good ((assignMove lA lB h).1, (assignMove lA lB h).2) ∧
      Good (lB, (assignMove lA lB h).2) ∧
      Good ((swapLists lA lB).1, h) ∧
      Good ((swapLists lA lB).2, h)) := by
  refine ⟨fun s hr => reach_good hr, ?_, ?_⟩
  · intro s A hw
    exact WF_invariants s.2 s.1 A hw
  · intro h lA lB A B hwA hwB hdisj
    obtain ⟨A2, hw2, _, hwB2, _, _, _, _⟩ := assignCopy_spec h lA lB A B hwA hwB hdisj
    exact ⟨⟨A2, hw2⟩, ⟨B, hwB2⟩, ⟨A2, hw2⟩, ⟨B, hwB2⟩, ⟨B, hwB⟩, ⟨A, hwA⟩⟩

/-- C5 witness: the state reached by pushing 7, popping from the front and
inserting at the end of the constructed list `[1, 2]` is well-formed, and
the invariant facts hold on the concrete list `[1, 2]`. -/
theorem C5_invariants_witness :
    Good (pop_front (push_back (ofList ([1, 2] : List Int)) 7)) ∧
    (ofList ([1, 2] : List Int)).1.size = ([0, 1] : List Nat).length ∧
    traverse (ofList ([1, 2] : List Int)).2 ((ofList ([1, 2] : List Int)).1.size + 1)
      (ofList ([1, 2] : List Int)).1.pHead = [0, 1] := by
  have hw : WF (ofList ([1, 2] : List Int)).2 (ofList ([1, 2] : List Int)).1 [0, 1] :=
    ⟨by decide, by decide, by decide, by decide, by decide, by decide⟩
  have hreach : Reach (pop_front (push_back (ofList ([1, 2] : List Int)) 7)) :=
    Reach.popFront _ (Reach.pushBack _ 7 (Reach.construct [1, 2]))
  have hinv := C5_invariants.2.1 (ofList ([1, 2] : List Int)) [0, 1] hw
  exact ⟨C5_invariants.1 _ hreach, hinv.1, hinv.2.1⟩

/-- C6: assigning a literal sequence onto an existing list yields a list
whose length and per-position values exactly match the literal, reusing the
existing nodes of the common prefix by value-overwrite, appending fresh
nodes when the literal is longer and releasing the surplus nodes when it is
shorter; concretely, `{1,2}` onto `[9,9,9,9]` yields `[1,2]` with
`size()==2`, and `{1,2,3,4}` onto `[9,9]` yields `[1,2,3,4]`. -/
theorem C6_assign_literal :
    (∀ (h : Heap T) (l : list T) (A : List Nat) (xs : List T), WF h l A →
      ∃ A2 : List Nat,
        WF (assignInit l h xs).2 (assignInit l h xs).1 A2 ∧
        values (assignInit l h xs).2 A2 = xs ∧
        (assignInit l h xs).1.numElements = xs.length ∧
        A2.take (min A.length xs.length) = A.take (min A.length xs.length) ∧
        (∀ a ∈ A.drop xs.length, (assignInit l h xs).2.nodeAt a = none)) ∧
    ((assignInit (ofList ([9, 9, 9, 9] : List Int)).1 (ofList ([9, 9, 9, 9] : List Int)).2
        [1, 2]).1.size = 2 ∧
      collectFwd (assignInit (ofList ([9, 9, 9, 9] : List Int)).1
          (ofList ([9, 9, 9, 9] : List Int)).2 [1, 2]).2 3
        (assignInit (ofList ([9, 9, 9, 9] : List Int)).1
          (ofList ([9, 9, 9, 9] : List Int)).2 [1, 2]).1.pHead = [1, 2]) ∧
    ((assignInit (ofList ([9, 9] : List Int)).1 (ofList ([9, 9] : List Int)).2
        [1, 2, 3, 4]).1.size = 4 ∧
      collectFwd (assignInit (ofList ([9, 9] : List Int)).1
          (ofList ([9, 9] : List Int)).2 [1, 2, 3, 4]).2 5
        (assignInit (ofList ([9, 9] : List Int)).1
          (ofList ([9, 9] : List Int)).2 [1, 2, 3, 4]).1.pHead = [1, 2, 3, 4]) := by
  refine ⟨?_, by decide, by decide⟩
  intro h l A xs hw
  obtain ⟨A2, hw2, hvals, hcnt, htake, hdead, _⟩ := assignInit_spec h l A xs hw
  exact ⟨A2, hw2, hvals, hcnt, htake, hdead⟩

/-- C6 witness: the general literal-assignment facts instantiated on the
concrete assignment of `{1,2}` onto `[9,9,9,9]`. -/
theorem C6_assign_literal_witness :
    ∃ A2 : List Nat,
      WF (assignInit (ofList ([9, 9, 9, 9] : List Int)).1
          (ofList ([9, 9, 9, 9] : List Int)).2 [1, 2]).2
        (assignInit (ofList ([9, 9, 9, 9] : List Int)).1
          (ofList ([9, 9, 9, 9] : List Int)).2 [1, 2]).1 A2 ∧
      values (assignInit (ofList ([9, 9, 9, 9] : List Int)).1
          (ofList ([9, 9, 9, 9] : List Int)).2 [1, 2]).2 A2 = [1, 2] := by
  have hw : WF (ofList ([9, 9, 9, 9] : List Int)).2 (ofList ([9, 9, 9, 9] : List Int)).1
      [0, 1, 2, 3] :=
    ⟨by decide, by decide, by decide, by decide, by decide, by decide⟩
  obtain ⟨A2, hw2, hvals, _, _, _⟩ :=
    C6_assign_literal.1 (ofList ([9, 9, 9, 9] : List Int)).2
      (ofList ([9, 9, 9, 9] : List Int)).1 [0, 1, 2, 3] [1, 2] hw
  exact ⟨A2, hw2, hvals⟩

end CustomList
